import Mathlib

/-!
# Task manager (`task_manager.c`): store and persistence codec

A shallow embedding of the in-memory task store (`task_list`, `task_count`,
`next_id`) and of the line-oriented codec (`save_tasks`, `load_tasks`) of
`task_manager.c`, followed by theorems about them.

Conventions of the embedding:

* a C `int` is an `Int`; the increment of `next_id` is reduced to 32 bits in
  two's complement (`wrapInt`); a `%d` conversion stores the numeral as the C
  library does on a platform with a 64-bit `long`: saturated to the `long`
  range, then truncated to 32 bits;
* a C string is the `List Char` of its bytes before the terminating NUL;
* `task_list` is the list of its `MAX_TASKS` array slots; the task sequence
  of the store is the prefix of `task_count` slots (`Store.tasks`);
* an index outside the array is undefined behaviour in C, and there the
  embedding does not describe the program: a write outside the list is
  dropped and a read outside it gives the zero task. The embedding is the
  program on the states with `Store.Bounded`, and for `load_tasks` on the
  files whose declared count is between 0 and `MAX_TASKS`;
* a stream (the file, standard input) is the `List Char` not yet read;
* the interactive prompts of `view_tasks`, `update_task_status` and
  `remove_task` are outside the embedding: the two functions take the value
  that `scanf("%d", &id)` delivers.
-/

namespace TaskManager

/-! ## Configuration and data structures -/

/-- Maximum number of tasks (`#define MAX_TASKS 100`). -/
def MAX_TASKS : Nat := 100

/-- Size of the description array (`#define MAX_DESC_LEN 100`). -/
def MAX_DESC_LEN : Nat := 100

/-- Largest value of a C `int`. -/
def INT_MAX : Int := 2147483647

/-- Smallest value of a C `int`. -/
def INT_MIN : Int := -2147483648

/-- Reduction of an integer to the 32-bit two's complement range. -/
def wrapInt (x : Int) : Int := (x + 2147483648) % 4294967296 - 2147483648

/-- Saturation of an integer to the range of a 64-bit `long`, as `strtol`
does for a numeral out of range. -/
def clampLong (x : Int) : Int :=
  if x < -9223372036854775808 then -9223372036854775808
  else if 9223372036854775807 < x then 9223372036854775807
  else x

/-- The value is representable as a C `int`. -/
def InInt (x : Int) : Prop := INT_MIN ≤ x ∧ x ≤ INT_MAX

instance (x : Int) : Decidable (InInt x) := by
  unfold InInt; infer_instance

/-- The `Task` struct: `id`, `description` (as a C string), `completed`. -/
structure Task where
  id : Int
  description : List Char
  completed : Int
deriving DecidableEq, Inhabited

/-- The global variables `task_list`, `task_count` and `next_id`. -/
structure Store where
  task_list : List Task
  task_count : Int
  next_id : Int
deriving DecidableEq

/-- The task sequence of a store: the first `task_count` array slots. -/
def Store.tasks (s : Store) : List Task := s.task_list.take s.task_count.toNat

/-- The ids of the task sequence, in order. -/
def Store.ids (s : Store) : List Int := s.tasks.map Task.id

/-- Array read `task_list[i]`. -/
def slot (tl : List Task) (i : Nat) : Task := tl.getD i default

/-- The globals as the C start-up code initialises them. -/
def Store.init : Store :=
  { task_list := List.replicate MAX_TASKS default, task_count := 0, next_id := 1 }

/-- The program state: the globals and the content of `tasks.txt`
(`none` when the file does not exist). -/
structure Sys where
  mem : Store
  disk : Option (List Char)
deriving DecidableEq

/-- What an operation reports on standard output. -/
inductive Outcome where
  /-- "Success: ..." with the task id the message prints -/
  | success (id : Int)
  /-- "Error: Task list is full (Max 100)." -/
  | listFull
  /-- "Error reading input." -/
  | readError
  /-- "Invalid input. Please enter a number." -/
  | invalidInput
  /-- "Error: Task with ID n not found." -/
  | notFound
  /-- "No tasks currently in the list." followed by a plain return -/
  | noTasks
deriving DecidableEq

/-! ## Characters and the C library routines the program uses -/

/-- The C `isspace` in the "C" locale. -/
def isspace (c : Char) : Bool :=
  c = ' ' || c = '\t' || c = '\n' || c = '\x0b' || c = '\x0c' || c = '\r'

/-- The C `isdigit`. -/
def isdigit (c : Char) : Bool := decide (48 ≤ c.toNat) && decide (c.toNat ≤ 57)

/-- The character of a decimal digit. -/
def digitChar (d : Nat) : Char := Char.ofNat (48 + d)

/-- The C string held in a buffer: the bytes before the first NUL. -/
def cstr (buf : List Char) : List Char := buf.takeWhile (fun c => c ≠ '\x00')

/-- Decimal digits of a natural number, most significant first; the first
argument bounds the number of digits. -/
def fmt_nat_fuel : Nat → Nat → List Char
  | 0, _ => []
  | f + 1, n =>
    if n < 10 then [digitChar n] else fmt_nat_fuel f (n / 10) ++ [digitChar (n % 10)]

/-- Decimal digits of a natural number. -/
def fmt_nat (n : Nat) : List Char := fmt_nat_fuel (n + 1) n

/-- The output of `printf("%d", x)`. -/
def fmt_d (x : Int) : List Char :=
  if x < 0 then '-' :: fmt_nat (-x).toNat else fmt_nat x.toNat

/-- Skipping of white space by a `scanf` directive. -/
def skipSpace : List Char → List Char
  | [] => []
  | c :: cs => if isspace c then skipSpace cs else c :: cs

/-- Reading of a run of decimal digits, accumulating their value. -/
def scanDigits (acc : Nat) : List Char → Nat × List Char
  | [] => (acc, [])
  | c :: cs =>
    if isdigit c then scanDigits (acc * 10 + (c.toNat - 48)) cs else (acc, c :: cs)

/-- The `%d` conversion of `scanf`: white space is skipped, then an optional
sign and a non-empty run of digits are read. Returns the converted value
(`none` when the conversion fails) and the input left unread. A sign that
is not followed by a digit is consumed. The numeral is saturated to the
`long` range and stored in the `int` by truncation. -/
def scanInt (inp : List Char) : Option Int × List Char :=
  match skipSpace inp with
  | [] => (none, [])
  | c :: cs =>
    if c = '-' || c = '+' then
      match cs with
      | [] => (none, [])
      | d :: ds =>
        if isdigit d then
          let r := scanDigits 0 (d :: ds)
          (some (wrapInt (clampLong (if c = '-' then -(r.1 : Int) else (r.1 : Int)))), r.2)
        else (none, d :: ds)
    else if isdigit c then
      let r := scanDigits 0 (c :: cs)
      (some (wrapInt (clampLong (r.1 : Int))), r.2)
    else (none, c :: cs)

/-- The call `fscanf(file, "%d\n", &x)`: a `%d` conversion and, when it
succeeds, the white-space directive. -/
def fscanf_d_nl (file : List Char) : Option Int × List Char :=
  match scanInt file with
  | (some v, rest) => (some v, skipSpace rest)
  | (none, rest) => (none, rest)

/-- Reads at most `k` characters, stopping after a newline. -/
def readLine : Nat → List Char → List Char × List Char
  | 0, s => ([], s)
  | _ + 1, [] => ([], [])
  | k + 1, c :: cs =>
    if c = '\n' then ([c], cs)
    else ((readLine k cs).1.cons c, (readLine k cs).2)

/-- The call `fgets(buf, n, stream)`: `none` (NULL) at end of input, else the
characters stored in the buffer; and the stream left unread. -/
def fgets (n : Nat) (stream : List Char) : Option (List Char) × List Char :=
  match stream with
  | [] => (none, [])
  | _ :: _ => (some (readLine (n - 1) stream).1, (readLine (n - 1) stream).2)

/-- The conversion `%99[^\n]`: at most `k` characters other than newline. -/
def scanSet : Nat → List Char → List Char
  | 0, _ => []
  | _ + 1, [] => []
  | k + 1, c :: cs => if c = '\n' then [] else c :: scanSet k cs

/-- The call `sscanf(buffer, "%d|%d|%99[^\n]", &t.id, &t.completed,
t.description)`: the number of fields assigned and the struct afterwards. -/
def sscanf_record (buffer : List Char) (t : Task) : Nat × Task :=
  match scanInt buffer with
  | (none, _) => (0, t)
  | (some id, r1) =>
    match r1 with
    | [] => (1, { t with id := id })
    | c1 :: r2 =>
      if c1 ≠ '|' then (1, { t with id := id })
      else
        match scanInt r2 with
        | (none, _) => (1, { t with id := id })
        | (some completed, r3) =>
          match r3 with
          | [] => (2, { t with id := id, completed := completed })
          | c2 :: r4 =>
            if c2 ≠ '|' then (2, { t with id := id, completed := completed })
            else
              match scanSet 99 r4 with
              | [] => (2, { t with id := id, completed := completed })
              | d :: ds => (3, { id := id, description := d :: ds, completed := completed })

/-! ## File I/O functions -/

/-- One record line: `fprintf(file, "%d|%d|%s\n", id, completed, description)`. -/
def fmt_record (t : Task) : List Char :=
  fmt_d t.id ++ '|' :: (fmt_d t.completed ++ '|' :: (t.description ++ ['\n']))

/-- The loop of `save_tasks`: `n` iterations starting at index `i`. -/
def save_loop (tl : List Task) : Nat → Nat → List Char
  | 0, _ => []
  | n + 1, i => fmt_record (slot tl i) ++ save_loop tl n (i + 1)

/-- The text `save_tasks` writes for the globals. -/
def encode (s : Store) : List Char :=
  fmt_d s.task_count ++ '\n' :: (fmt_d s.next_id ++ '\n' :: save_loop s.task_list s.task_count.toNat 0)

/-- The function `save_tasks`: when the file can be opened for writing
(`writable`) its content is replaced, otherwise nothing happens. -/
def save_tasks (writable : Bool) (mem : Store) (disk : Option (List Char)) :
    Option (List Char) :=
  if writable then some (encode mem) else disk

/-- The loop of `load_tasks`: `n` iterations remain, the index is `i`.
Returns the array and the final `task_count`. It is the program's loop as
long as `i` stays below `MAX_TASKS`; beyond that the program writes past the
array. -/
def load_loop : Nat → Nat → List Char → List Task → Int → List Task × Int
  | 0, _, _, tl, tc => (tl, tc)
  | n + 1, i, file, tl, tc =>
    match fgets (MAX_DESC_LEN + 10) file with
    | (none, _) => (tl, (i : Int))
    | (some buffer, file1) =>
      let r := sscanf_record (cstr buffer) (slot tl i)
      if r.1 ≠ 3 then (tl.set i r.2, (i : Int))
      else load_loop n (i + 1) file1 (tl.set i r.2) tc

/-- The function `load_tasks`, from the content of the file (`none` when it
cannot be opened) and the globals before the call. -/
def load_tasks (disk : Option (List Char)) (mem : Store) : Store :=
  match disk with
  | none => { mem with task_count := 0, next_id := 1 }
  | some file =>
    let h1 := fscanf_d_nl file
    let tc := h1.1.getD 0
    let h2 := fscanf_d_nl h1.2
    let nid := h2.1.getD 1
    let r := load_loop tc.toNat 0 h2.2 mem.task_list tc
    { task_list := r.1, task_count := r.2, next_id := nid }

/-! ## Task management functions -/

/-- The function `add_task`; `stdin` is the unread standard input. It is the
program's function on the stores with `0 ≤ task_count`; with a negative
`task_count` the program writes before the array. -/
def add_task (writable : Bool) (stdin : List Char) (σ : Sys) : Sys × Outcome :=
  if σ.mem.task_count ≥ (MAX_TASKS : Int) then (σ, Outcome.listFull)
  else
    match fgets MAX_DESC_LEN stdin with
    | (none, _) => (σ, Outcome.readError)
    | (some buf, _) =>
      let s := cstr buf
      let t : Task :=
        { id := σ.mem.next_id, description := s.takeWhile (fun c => c ≠ '\n'), completed := 0 }
      let mem1 : Store :=
        { task_list := σ.mem.task_list.set σ.mem.task_count.toNat t,
          task_count := σ.mem.task_count + 1,
          next_id := wrapInt (σ.mem.next_id + 1) }
      ({ mem := mem1, disk := save_tasks writable mem1 σ.disk },
        Outcome.success (slot mem1.task_list (mem1.task_count - 1).toNat).id)

/-- The search loop of `update_task_status`: the array after the first
matching slot is marked, or `none` when no slot matches. -/
def update_loop (id : Int) (tl : List Task) : Nat → Nat → Option (List Task)
  | 0, _ => none
  | n + 1, i =>
    if (slot tl i).id = id then some (tl.set i { slot tl i with completed := 1 })
    else update_loop id tl n (i + 1)

/-- The function `update_task_status`; `input` is what `scanf("%d", &id)`
delivers (`none` when the conversion fails). -/
def update_task_status (writable : Bool) (input : Option Int) (σ : Sys) : Sys × Outcome :=
  if σ.mem.task_count = 0 then (σ, Outcome.noTasks)
  else
    match input with
    | none => (σ, Outcome.invalidInput)
    | some id =>
      match update_loop id σ.mem.task_list σ.mem.task_count.toNat 0 with
      | some tl =>
        let mem1 : Store := { σ.mem with task_list := tl }
        ({ mem := mem1, disk := save_tasks writable mem1 σ.disk }, Outcome.success id)
      | none => (σ, Outcome.notFound)

/-- The search loop of `remove_task`: the first index whose id matches. -/
def find_index (id : Int) (tl : List Task) : Nat → Nat → Option Nat
  | 0, _ => none
  | n + 1, i => if (slot tl i).id = id then some i else find_index id tl n (i + 1)

/-- The shifting loop of `remove_task`: `n` iterations of
`task_list[i] = task_list[i+1]` starting at index `i`. -/
def shift_loop : Nat → Nat → List Task → List Task
  | 0, _, tl => tl
  | n + 1, i, tl => shift_loop n (i + 1) (tl.set i (slot tl (i + 1)))

/-- The function `remove_task`; `input` is what `scanf("%d", &id)` delivers. -/
def remove_task (writable : Bool) (input : Option Int) (σ : Sys) : Sys × Outcome :=
  if σ.mem.task_count = 0 then (σ, Outcome.noTasks)
  else
    match input with
    | none => (σ, Outcome.invalidInput)
    | some id =>
      match find_index id σ.mem.task_list σ.mem.task_count.toNat 0 with
      | some k =>
        let mem1 : Store :=
          { σ.mem with
            task_list := shift_loop (σ.mem.task_count - 1 - (k : Int)).toNat k σ.mem.task_list,
            task_count := σ.mem.task_count - 1 }
        ({ mem := mem1, disk := save_tasks writable mem1 σ.disk }, Outcome.success id)
      | none => (σ, Outcome.notFound)

/-- The three mutating menu commands of `main`, each with what the
environment supplies to the call: whether `tasks.txt` can be opened for
writing, and the standard input (`add`) or the scanned id. -/
inductive Op where
  | add (writable : Bool) (stdin : List Char)
  | markComplete (writable : Bool) (input : Option Int)
  | remove (writable : Bool) (input : Option Int)
deriving DecidableEq

/-- Dispatch of one menu command (the `switch` of `main`). -/
def step (op : Op) (σ : Sys) : Sys × Outcome :=
  match op with
  | Op.add w inp => add_task w inp σ
  | Op.markComplete w inp => update_task_status w inp σ
  | Op.remove w inp => remove_task w inp σ

/-- Runs a sequence of commands. -/
def run : List Op → Sys → Sys
  | [], σ => σ
  | op :: ops, σ => run ops (step op σ).1

/-- The id a command assigned: the one a successful `add` reports. -/
def assignedBy (op : Op) (o : Outcome) : List Int :=
  match op, o with
  | Op.add _ _, Outcome.success id => [id]
  | _, _ => []

/-- The ids assigned by the successful `add` calls of a command sequence, in
the order of assignment. -/
def assigned : List Op → Sys → List Int
  | [], _ => []
  | op :: ops, σ => assignedBy op (step op σ).2 ++ assigned ops (step op σ).1

/-- The array has its `MAX_TASKS` slots and `task_count` counts slots of it. -/
def Store.Bounded (s : Store) : Prop :=
  s.task_list.length = MAX_TASKS ∧ 0 ≤ s.task_count ∧ s.task_count ≤ (MAX_TASKS : Int)

instance (s : Store) : Decidable s.Bounded := by
  unfold Store.Bounded; infer_instance

/-- The store invariant of the data model: pairwise distinct ids, `next_id`
above every id, and at most `MAX_TASKS` tasks. -/
def Store.Inv (s : Store) : Prop :=
  s.ids.Nodup ∧ (∀ x ∈ s.ids, x < s.next_id) ∧ s.task_count ≤ (MAX_TASKS : Int)

instance (s : Store) : Decidable s.Inv := by
  unfold Store.Inv; infer_instance

/-- The fields of a task are as the C types and the record format want them:
both numbers are `int` values, the description is a C string of at most 99
bytes without a newline. -/
def Task.WellFormed (t : Task) : Prop :=
  InInt t.id ∧ InInt t.completed ∧ '\n' ∉ t.description ∧ '\x00' ∉ t.description ∧
    t.description.length ≤ 99

instance (t : Task) : Decidable t.WellFormed := by
  unfold Task.WellFormed; infer_instance

/-! ## Sample states -/

/-- A store holding two tasks. -/
def twoTasks : Store :=
  { task_list := [⟨1, "Buy milk".toList, 0⟩, ⟨2, "Walk dog".toList, 0⟩] ++
      List.replicate 98 default,
    task_count := 2, next_id := 3 }

/-- A store filled to capacity with the ids 1 to 100. -/
def fullStore : Store :=
  { task_list := (List.range 100).map (fun i => ⟨(i : Int) + 1, ['t'], 0⟩),
    task_count := 100, next_id := 101 }

/-- An empty store whose `next_id` is the largest `int`. -/
def lastIdStore : Store :=
  { task_list := List.replicate 100 default, task_count := 0, next_id := 2147483647 }

/-- A store whose only task has an empty description, as `add_task` stores it
for an empty input line. -/
def emptyDescStore : Store :=
  { task_list := ⟨1, [], 0⟩ :: List.replicate 99 default, task_count := 1, next_id := 2 }

/-- A store whose only task has an id of eight digits and a description of
99 bytes. -/
def longLineStore : Store :=
  { task_list := ⟨10000000, List.replicate 99 'a', 0⟩ :: List.replicate 99 default,
    task_count := 1, next_id := 10000001 }

/-- A command sequence of `n` rounds, each adding a task and removing it
again; `id` is the id the first round is to remove. -/
def addRemoveRounds : Nat → Int → List Op
  | 0, _ => []
  | n + 1, id =>
    Op.add true ['a', '\n'] :: Op.remove true (some id) ::
      addRemoveRounds n (wrapInt (id + 1))

/-! ## Notions used to state the properties of the codec -/

/-- Whether the environment lets the command open `tasks.txt` for writing. -/
def Op.writable : Op → Bool
  | Op.add w _ => w
  | Op.markComplete w _ => w
  | Op.remove w _ => w

/-- The next record of a stream is missing or malformed: `fgets` finds the end
of input, or `sscanf` does not assign three fields from the line read. -/
def BadRecord (stream : List Char) : Prop :=
  match fgets (MAX_DESC_LEN + 10) stream with
  | (none, _) => True
  | (some buffer, _) => (sscanf_record (cstr buffer) default).1 ≠ 3

instance (stream : List Char) : Decidable (BadRecord stream) := by
  unfold BadRecord; split <;> infer_instance

/-- The count `load_tasks` holds when it enters its loop: what the first
`fscanf` stored, 0 when that conversion failed or the file could not be
opened. -/
def declared_count (disk : Option (List Char)) : Int :=
  match disk with
  | none => 0
  | some file => (fscanf_d_nl file).1.getD 0

/-- The description fits the record format: no newline, at most 99 bytes. -/
def Task.GoodDesc (t : Task) : Prop :=
  '\n' ∉ t.description ∧ t.description.length ≤ 99

instance (t : Task) : Decidable t.GoodDesc := by
  unfold Task.GoodDesc; infer_instance

/-- A store with a single task. -/
def oneTask : Store :=
  { task_list := ⟨1, "Buy milk".toList, 0⟩ :: List.replicate 99 default,
    task_count := 1, next_id := 2 }

/-- A file that declares two tasks and whose first record line is blank. -/
def blankFirstRecordFile : List Char := "2\n3\n\n1|0|a\n2|0|b\n".toList

/-- A file that declares three tasks and holds two record lines, the first of
111 bytes. -/
def longRecordFile : List Char :=
  "3\n9\n".toList ++
    (fmt_record ⟨10000000, List.replicate 99 'a', 0⟩ ++ "2|0|b\n".toList)

/-- A task with an id of eight digits and a description of 99 bytes that
holds a separator. -/
def barTask : Task := ⟨10000000, 'x' :: '|' :: List.replicate 97 'y', 0⟩

/-- A store whose first task has a record line of 111 bytes and whose second
task has an empty description. -/
def longThenEmptyStore : Store :=
  { task_list := ⟨10000000, List.replicate 99 'a', 0⟩ :: ⟨10000001, [], 0⟩ ::
      List.replicate 98 default,
    task_count := 2, next_id := 10000002 }

/-- A store of three tasks whose second task has an empty description. -/
def secondEmptyStore : Store :=
  { task_list := ⟨1, "Buy milk".toList, 0⟩ :: ⟨2, [], 0⟩ :: ⟨3, "Walk dog".toList, 1⟩ ::
      List.replicate 97 default,
    task_count := 3, next_id := 4 }

/-! ## Lemmas on the array loops -/

theorem slot_eq_getElem (tl : List Task) (i : Nat) (h : i < tl.length) :
    slot tl i = tl[i] := by
  simp [slot, List.getD_eq_getElem?_getD, List.getElem?_eq_getElem h]

theorem slot_set_ne (tl : List Task) (i j : Nat) (t : Task) (h : i ≠ j) :
    slot (tl.set i t) j = slot tl j := by
  simp [slot, List.getD_eq_getElem?_getD, List.getElem?_set, h]

theorem slot_set_eq (tl : List Task) (i : Nat) (t : Task) (h : i < tl.length) :
    slot (tl.set i t) i = t := by
  simp [slot, List.getD_eq_getElem?_getD, List.getElem?_set, h]

theorem find_index_some {id : Int} {tl : List Task} :
    ∀ {n i k : Nat}, find_index id tl n i = some k →
      i ≤ k ∧ k < i + n ∧ (slot tl k).id = id ∧
        ∀ j, i ≤ j → j < k → (slot tl j).id ≠ id := by
  intro n
  induction n with
  | zero => intro i k h; simp [find_index] at h
  | succ n ih =>
    intro i k h
    unfold find_index at h
    by_cases hi : (slot tl i).id = id
    · rw [if_pos hi] at h
      cases h
      refine ⟨le_refl _, by omega, hi, ?_⟩
      intro j h1 h2; omega
    · rw [if_neg hi] at h
      obtain ⟨h1, h2, h3, h4⟩ := ih h
      refine ⟨by omega, by omega, h3, ?_⟩
      intro j hj1 hj2
      by_cases hji : j = i
      · subst hji; exact hi
      · exact h4 j (by omega) hj2

theorem find_index_none {id : Int} {tl : List Task} :
    ∀ {n i : Nat}, find_index id tl n i = none →
      ∀ j, i ≤ j → j < i + n → (slot tl j).id ≠ id := by
  intro n
  induction n with
  | zero => intro i _ j h1 h2; omega
  | succ n ih =>
    intro i h j h1 h2
    unfold find_index at h
    by_cases hi : (slot tl i).id = id
    · rw [if_pos hi] at h; cases h
    · rw [if_neg hi] at h
      by_cases hji : j = i
      · subst hji; exact hi
      · exact ih h j (by omega) (by omega)

theorem find_index_of_first {id : Int} {tl : List Task} :
    ∀ {n i k : Nat}, i ≤ k → k < i + n → (slot tl k).id = id →
      (∀ j, i ≤ j → j < k → (slot tl j).id ≠ id) → find_index id tl n i = some k := by
  intro n
  induction n with
  | zero => intro i k h1 h2; omega
  | succ n ih =>
    intro i k h1 h2 h3 h4
    unfold find_index
    by_cases hik : i = k
    · subst hik; rw [if_pos h3]
    · rw [if_neg (h4 i (le_refl _) (by omega))]
      exact ih (by omega) (by omega) h3 (fun j hj1 hj2 => h4 j (by omega) hj2)

theorem update_loop_eq (id : Int) (tl : List Task) :
    ∀ (n i : Nat), update_loop id tl n i =
      (find_index id tl n i).map (fun k => tl.set k { slot tl k with completed := 1 }) := by
  intro n
  induction n with
  | zero => intro i; rfl
  | succ n ih =>
    intro i
    unfold update_loop find_index
    by_cases hi : (slot tl i).id = id
    · simp [hi]
    · simp [hi, ih]

theorem shift_loop_getElem? :
    ∀ (n i : Nat) (tl : List Task), i + n < tl.length → ∀ j,
      (shift_loop n i tl)[j]? = if i ≤ j ∧ j < i + n then tl[j + 1]? else tl[j]? := by
  intro n
  induction n with
  | zero =>
    intro i tl _ j
    have h1 : ¬ (i ≤ j ∧ j < i + 0) := by omega
    rw [if_neg h1]; rfl
  | succ n ih =>
    intro i tl h j
    unfold shift_loop
    rw [ih (i + 1) _ (by simpa using (by omega : i + 1 + n < tl.length))]
    rw [slot_eq_getElem tl (i + 1) (by omega)]
    simp only [List.getElem?_set]
    by_cases hj : j = i
    · subst hj
      have h1 : j < tl.length := by omega
      have h2 : j + 1 < tl.length := by omega
      simp [h1, List.getElem?_eq_getElem h2]
    · by_cases h1 : i + 1 ≤ j ∧ j < i + 1 + n
      · have h2 : i ≤ j ∧ j < i + (n + 1) := by omega
        have h3 : ¬ i = j + 1 := by omega
        simp [h1, h2, h3]
      · have h2 : ¬ (i ≤ j ∧ j < i + (n + 1)) := by omega
        have h3 : ¬ i = j := by omega
        simp [h1, h2, h3]

theorem shift_loop_length :
    ∀ (n i : Nat) (tl : List Task), (shift_loop n i tl).length = tl.length := by
  intro n
  induction n with
  | zero => intro i tl; rfl
  | succ n ih => intro i tl; unfold shift_loop; rw [ih]; simp

/-- The prefix left by the shifting loop is the old prefix without slot `k`. -/
theorem take_shift_loop (tl : List Task) (c k : Nat) (hk : k < c) (hc : c ≤ tl.length) :
    (shift_loop (c - 1 - k) k tl).take (c - 1) = (tl.take c).eraseIdx k := by
  apply List.ext_getElem?
  intro j
  rw [List.getElem?_take, List.getElem?_eraseIdx, List.getElem?_take, List.getElem?_take]
  by_cases hj : j < c - 1
  · rw [if_pos hj, shift_loop_getElem? _ _ _ (by omega)]
    by_cases hjk : j < k
    · have h1 : ¬ (k ≤ j ∧ j < k + (c - 1 - k)) := by omega
      have h2 : j < c := by omega
      simp [h1, hjk, h2]
    · have h1 : k ≤ j ∧ j < k + (c - 1 - k) := by omega
      have h2 : j + 1 < c := by omega
      simp [h1, hjk, h2]
  · rw [if_neg hj]
    by_cases hjk : j < k
    · omega
    · have h2 : ¬ j + 1 < c := by omega
      simp [hjk, h2]

theorem eraseP_eq_eraseIdx_first {α : Type} (p : α → Bool) :
    ∀ (l : List α) (k : Nat) (a : α), l[k]? = some a → p a = true →
      (∀ j b, j < k → l[j]? = some b → p b = false) → l.eraseP p = l.eraseIdx k := by
  intro l
  induction l with
  | nil => intro k a h; simp at h
  | cons x xs ih =>
    intro k a h hp hfirst
    cases k with
    | zero =>
      simp at h; subst h
      simp [hp]
    | succ k =>
      have hx : p x = false := hfirst 0 x (by omega) (by simp)
      rw [List.eraseP_cons_of_neg (by simp [hx]), List.eraseIdx_cons_succ]
      congr 1
      apply ih k a (by simpa using h) hp
      intro j b hj hb
      exact hfirst (j + 1) b (by omega) (by simpa using hb)

/-! ## Lemmas on the store operations -/

theorem wrapInt_of_inInt {x : Int} (h : InInt x) : wrapInt x = x := by
  unfold InInt INT_MIN INT_MAX at h
  unfold wrapInt
  omega

theorem wrapInt_inInt (x : Int) : InInt (wrapInt x) := by
  unfold InInt INT_MIN INT_MAX wrapInt
  omega

theorem tasks_getElem? (s : Store) (hb : s.task_count.toNat ≤ s.task_list.length) (j : Nat) :
    s.tasks[j]? = if j < s.task_count.toNat then some (slot s.task_list j) else none := by
  unfold Store.tasks
  rw [List.getElem?_take]
  by_cases h : j < s.task_count.toNat
  · rw [if_pos h, if_pos h, slot_eq_getElem _ _ (by omega), List.getElem?_eq_getElem]
  · rw [if_neg h, if_neg h]

theorem mem_ids_iff (s : Store) (hb : s.task_count.toNat ≤ s.task_list.length) (id : Int) :
    id ∈ s.ids ↔ ∃ j, j < s.task_count.toNat ∧ (slot s.task_list j).id = id := by
  unfold Store.ids
  rw [List.mem_map]
  constructor
  · rintro ⟨t, ht, hid⟩
    obtain ⟨j, hj⟩ := List.mem_iff_getElem?.mp ht
    rw [tasks_getElem? s hb] at hj
    by_cases h : j < s.task_count.toNat
    · rw [if_pos h] at hj
      cases hj
      exact ⟨j, h, hid⟩
    · rw [if_neg h] at hj; cases hj
  · rintro ⟨j, hj, hid⟩
    refine ⟨slot s.task_list j, ?_, hid⟩
    apply List.mem_iff_getElem?.mpr
    exact ⟨j, by rw [tasks_getElem? s hb, if_pos hj]⟩

theorem Store.Bounded.toNat_le {s : Store} (hb : s.Bounded) :
    s.task_count.toNat ≤ s.task_list.length := by
  obtain ⟨h1, h2, h3⟩ := hb
  unfold MAX_TASKS at h1 h3
  omega

theorem find_index_of_mem (s : Store) (hb : s.task_count.toNat ≤ s.task_list.length)
    (id : Int) (hid : id ∈ s.ids) :
    ∃ k, find_index id s.task_list s.task_count.toNat 0 = some k := by
  obtain ⟨j, hj, hjid⟩ := (mem_ids_iff s hb id).mp hid
  cases h : find_index id s.task_list s.task_count.toNat 0 with
  | some k => exact ⟨k, rfl⟩
  | none => exact absurd hjid (find_index_none h j (by omega) (by omega))

theorem find_index_of_not_mem (s : Store) (hb : s.task_count.toNat ≤ s.task_list.length)
    (id : Int) (hid : id ∉ s.ids) :
    find_index id s.task_list s.task_count.toNat 0 = none := by
  cases h : find_index id s.task_list s.task_count.toNat 0 with
  | none => rfl
  | some k =>
    obtain ⟨_, h2, h3, _⟩ := find_index_some h
    exact absurd ((mem_ids_iff s hb id).mpr ⟨k, by omega, h3⟩) hid

theorem scan_line_eq : ∀ (k : Nat) (s : List Char),
    ((cstr (readLine k s).1).takeWhile (fun c => c ≠ '\n')) =
      ((cstr s).takeWhile (fun c => c ≠ '\n')).take k := by
  intro k
  induction k with
  | zero => intro s; simp [readLine, cstr]
  | succ k ih =>
    intro s
    cases s with
    | nil => simp [readLine, cstr]
    | cons c cs =>
      unfold readLine
      by_cases hc : c = '\n'
      · subst hc; simp [cstr]
      · rw [if_neg hc]
        by_cases h0 : c = '\x00'
        · subst h0; simp [cstr]
        · have := ih cs
          simp only [cstr] at this ⊢
          simp [List.takeWhile_cons, h0, hc]
          simpa using this

theorem take_succ_set (tl : List Task) (n : Nat) (t : Task) (h : n < tl.length) :
    (tl.set n t).take (n + 1) = tl.take n ++ [t] := by
  apply List.ext_getElem?
  intro j
  rw [List.getElem?_take, List.getElem?_set, List.getElem?_append, List.getElem?_take]
  simp only [List.length_take]
  by_cases h1 : j < n
  · have h2 : j < n + 1 := by omega
    have h3 : ¬ n = j := by omega
    have h4 : j < min n tl.length := by omega
    simp [h1, h2, h3, h4]
  · by_cases h2 : j = n
    · subst h2
      have h4 : ¬ j < min j tl.length := by omega
      have h5 : j - min j tl.length = 0 := by omega
      simp [h, h4, h5]
    · have h3 : ¬ j < n + 1 := by omega
      have h4 : ¬ j < min n tl.length := by omega
      have h5 : j - min n tl.length = (j - n - 1) + 1 := by omega
      simp [h3, h4, h5]

theorem add_task_of_full (w : Bool) (stdin : List Char) (σ : Sys)
    (h : (MAX_TASKS : Int) ≤ σ.mem.task_count) :
    add_task w stdin σ = (σ, Outcome.listFull) := by
  unfold add_task
  rw [if_pos h]

theorem add_task_of_eof (w : Bool) (σ : Sys) (h : σ.mem.task_count < (MAX_TASKS : Int)) :
    add_task w [] σ = (σ, Outcome.readError) := by
  unfold add_task
  rw [if_neg (by omega)]
  rfl

/-- The task `add_task` stores for a given input and `next_id`. -/
theorem add_task_of_room (w : Bool) (stdin : List Char) (σ : Sys) (hb : σ.mem.Bounded)
    (hc : σ.mem.task_count < (MAX_TASKS : Int)) (hin : stdin ≠ []) :
    (add_task w stdin σ).2 = Outcome.success σ.mem.next_id ∧
    (add_task w stdin σ).1.mem.task_list.length = σ.mem.task_list.length ∧
    (add_task w stdin σ).1.mem.tasks = σ.mem.tasks ++
      [{ id := σ.mem.next_id,
         description := ((cstr stdin).takeWhile (fun c => c ≠ '\n')).take 99,
         completed := 0 }] ∧
    (add_task w stdin σ).1.mem.task_count = σ.mem.task_count + 1 ∧
    (add_task w stdin σ).1.mem.next_id = wrapInt (σ.mem.next_id + 1) ∧
    (add_task w stdin σ).1.disk = save_tasks w (add_task w stdin σ).1.mem σ.disk := by
  obtain ⟨h1, h2, h3⟩ := hb
  cases stdin with
  | nil => exact absurd rfl hin
  | cons c cs =>
    have hn : σ.mem.task_count.toNat < σ.mem.task_list.length := by
      unfold MAX_TASKS at h1 hc; omega
    have e1 : (σ.mem.task_count + 1 - 1).toNat = σ.mem.task_count.toNat := by omega
    have e2 : (σ.mem.task_count + 1).toNat = σ.mem.task_count.toNat + 1 := by omega
    unfold add_task
    rw [if_neg (by omega)]
    simp only [fgets, MAX_DESC_LEN, Store.tasks, e1, e2]
    refine ⟨?_, by simp, ?_, by trivial, by trivial, by trivial⟩
    · rw [slot_set_eq _ _ _ hn]
    · rw [take_succ_set _ _ _ hn, scan_line_eq]

theorem update_task_status_of_mem (w : Bool) (id : Int) (σ : Sys) (hb : σ.mem.Bounded)
    (hid : id ∈ σ.mem.ids) :
    ∃ k, k < σ.mem.task_count.toNat ∧ (slot σ.mem.task_list k).id = id ∧
      (∀ j, j < k → (slot σ.mem.task_list j).id ≠ id) ∧
      (update_task_status w (some id) σ).2 = Outcome.success id ∧
      (update_task_status w (some id) σ).1.mem =
        { task_list := σ.mem.task_list.set k { slot σ.mem.task_list k with completed := 1 },
          task_count := σ.mem.task_count, next_id := σ.mem.next_id } ∧
      (update_task_status w (some id) σ).1.disk =
        save_tasks w (update_task_status w (some id) σ).1.mem σ.disk := by
  obtain ⟨k, hk⟩ := find_index_of_mem σ.mem hb.toNat_le id hid
  obtain ⟨_, k2, k3, k4⟩ := find_index_some hk
  refine ⟨k, by omega, k3, fun j hj => k4 j (by omega) hj, ?_⟩
  have hne : σ.mem.task_count ≠ 0 := by omega
  unfold update_task_status
  rw [if_neg hne]
  simp only [update_loop_eq, hk, Option.map_some']
  exact ⟨by trivial, by trivial, by trivial⟩

theorem update_task_status_of_not_mem (w : Bool) (id : Int) (σ : Sys) (hb : σ.mem.Bounded)
    (hid : id ∉ σ.mem.ids) :
    update_task_status w (some id) σ =
      (σ, if σ.mem.task_count = 0 then Outcome.noTasks else Outcome.notFound) := by
  unfold update_task_status
  by_cases h0 : σ.mem.task_count = 0
  · rw [if_pos h0, if_pos h0]
  · rw [if_neg h0, if_neg h0]
    simp only [update_loop_eq, find_index_of_not_mem σ.mem hb.toNat_le id hid, Option.map_none']

theorem remove_task_of_mem (w : Bool) (id : Int) (σ : Sys) (hb : σ.mem.Bounded)
    (hid : id ∈ σ.mem.ids) :
    (remove_task w (some id) σ).2 = Outcome.success id ∧
    (remove_task w (some id) σ).1.mem.task_list.length = σ.mem.task_list.length ∧
    (remove_task w (some id) σ).1.mem.tasks =
      σ.mem.tasks.eraseP (fun t => decide (t.id = id)) ∧
    (remove_task w (some id) σ).1.mem.task_count = σ.mem.task_count - 1 ∧
    (remove_task w (some id) σ).1.mem.next_id = σ.mem.next_id ∧
    (remove_task w (some id) σ).1.disk =
      save_tasks w (remove_task w (some id) σ).1.mem σ.disk := by
  obtain ⟨k, hk⟩ := find_index_of_mem σ.mem hb.toNat_le id hid
  obtain ⟨_, k2, k3, k4⟩ := find_index_some hk
  have hle := hb.toNat_le
  have hne : σ.mem.task_count ≠ 0 := by omega
  have e1 : (σ.mem.task_count - 1 - (k : Int)).toNat = σ.mem.task_count.toNat - 1 - k := by omega
  have e2 : (σ.mem.task_count - 1).toNat = σ.mem.task_count.toNat - 1 := by omega
  unfold remove_task
  rw [if_neg hne]
  simp only [hk, Store.tasks, e1, e2]
  refine ⟨by trivial, shift_loop_length _ _ _, ?_, by trivial, by trivial, by trivial⟩
  rw [take_shift_loop _ _ _ (by omega) hle]
  symm
  apply eraseP_eq_eraseIdx_first _ _ k (slot σ.mem.task_list k)
  · have := tasks_getElem? σ.mem hle k
    rw [if_pos (by omega)] at this
    exact this
  · simpa using k3
  · intro j b hj hjb
    have := tasks_getElem? σ.mem hle j
    rw [if_pos (by omega)] at this
    unfold Store.tasks at this
    rw [this] at hjb
    cases hjb
    simpa using k4 j (by omega) hj

theorem remove_task_of_not_mem (w : Bool) (id : Int) (σ : Sys) (hb : σ.mem.Bounded)
    (hid : id ∉ σ.mem.ids) :
    remove_task w (some id) σ =
      (σ, if σ.mem.task_count = 0 then Outcome.noTasks else Outcome.notFound) := by
  unfold remove_task
  by_cases h0 : σ.mem.task_count = 0
  · rw [if_pos h0, if_pos h0]
  · rw [if_neg h0, if_neg h0]
    simp only [find_index_of_not_mem σ.mem hb.toNat_le id hid]

theorem map_set_same {β : Type} (f : Task → β) (l : List Task) (k : Nat) (t u : Task)
    (h : l[k]? = some t) (hf : f u = f t) : (l.set k u).map f = l.map f := by
  apply List.ext_getElem?
  intro j
  simp only [List.getElem?_map, List.getElem?_set]
  by_cases hj : k = j
  · subst hj
    have hk : k < l.length := by
      rcases Nat.lt_or_ge k l.length with h1 | h1
      · exact h1
      · rw [List.getElem?_eq_none h1] at h; cases h
    simp [hk, h, hf]
  · simp [hj]

/-! ## The store operations -/

/-- C6: on a store whose count is already the maximum of 100, `add_task`
reports that the list is full and leaves the whole state as it was: the task
array, the count, `next_id` and the content of the file. -/
theorem add_task_at_capacity (w : Bool) (stdin : List Char) (σ : Sys)
    (h : σ.mem.task_count = (MAX_TASKS : Int)) :
    add_task w stdin σ = (σ, Outcome.listFull) :=
  add_task_of_full w stdin σ (by omega)

theorem add_task_at_capacity_witness :
    fullStore.task_count = (MAX_TASKS : Int) ∧
      add_task true "one more\n".toList ⟨fullStore, none⟩ =
        (⟨fullStore, none⟩, Outcome.listFull) :=
  ⟨by decide, add_task_at_capacity true _ ⟨fullStore, none⟩ (by decide)⟩

/-- C7, as the claim states it, fails: with `next_id = INT_MAX` the increment
leaves the `int` range, so `next_id` does not grow by one; at end of input
`add_task` reports a read error and adds nothing; and an input line holding a
NUL byte is stored only up to that byte. -/
theorem add_task_next_id_overflow :
    (add_task true "x\n".toList ⟨lastIdStore, none⟩).1.mem.next_id = -2147483648 ∧
    (add_task true "x\n".toList ⟨lastIdStore, none⟩).1.mem.next_id ≠ lastIdStore.next_id + 1 ∧
    add_task true [] ⟨Store.init, none⟩ = (⟨Store.init, none⟩, Outcome.readError) ∧
    (add_task true "ab\x00cd\n".toList ⟨Store.init, none⟩).1.mem.tasks = [⟨1, "ab".toList, 0⟩] := by
  decide

/-- C7, amended: when the count is below the maximum, `next_id` is below
`INT_MAX` and an input line is present, `add_task` succeeds; the task sequence
becomes the old one followed by one task with the old `next_id` as id, not
completed, described by the input, read as a C string, up to its first
newline cut to 99 bytes; the count and `next_id` each grow by one. -/
theorem add_task_appends (w : Bool) (stdin : List Char) (σ : Sys) (hb : σ.mem.Bounded)
    (hc : σ.mem.task_count < (MAX_TASKS : Int)) (hin : stdin ≠ [])
    (hlo : INT_MIN ≤ σ.mem.next_id) (hhi : σ.mem.next_id < INT_MAX) :
    (add_task w stdin σ).2 = Outcome.success σ.mem.next_id ∧
    (add_task w stdin σ).1.mem.tasks = σ.mem.tasks ++
      [{ id := σ.mem.next_id,
         description := ((cstr stdin).takeWhile (fun c => c ≠ '\n')).take 99,
         completed := 0 }] ∧
    (add_task w stdin σ).1.mem.task_count = σ.mem.task_count + 1 ∧
    (add_task w stdin σ).1.mem.next_id = σ.mem.next_id + 1 := by
  obtain ⟨h1, _, h3, h4, h5, _⟩ := add_task_of_room w stdin σ hb hc hin
  refine ⟨h1, h3, h4, ?_⟩
  rw [h5]
  apply wrapInt_of_inInt
  unfold InInt INT_MIN INT_MAX at *
  omega

theorem add_task_appends_witness :
    (add_task true "Feed cat\nrest".toList ⟨twoTasks, none⟩).2 = Outcome.success 3 ∧
    (add_task true "Feed cat\nrest".toList ⟨twoTasks, none⟩).1.mem.tasks =
      twoTasks.tasks ++ [⟨3, "Feed cat".toList, 0⟩] ∧
    (add_task true "Feed cat\nrest".toList ⟨twoTasks, none⟩).1.mem.task_count = 3 ∧
    (add_task true "Feed cat\nrest".toList ⟨twoTasks, none⟩).1.mem.next_id = 4 :=
  add_task_appends true "Feed cat\nrest".toList ⟨twoTasks, none⟩
    (by decide) (by decide) (by decide) (by decide) (by decide)

/-- C8, as the claim states it, fails: on an empty store `update_task_status`
returns before asking for an id and reports no "not found" error. -/
theorem update_task_status_empty_store :
    (1 : Int) ∉ Store.init.ids ∧
    (update_task_status true (some 1) ⟨Store.init, none⟩).2 = Outcome.noTasks ∧
    (update_task_status true (some 1) ⟨Store.init, none⟩).2 ≠ Outcome.notFound := by
  decide

/-- C8, amended: if no task has the id, `update_task_status` leaves the state
unchanged and reports "not found", except that on an empty store it returns
before asking for an id, reporting only that there are no tasks; if a task
has the id, marking twice gives the same store as marking once. -/
theorem update_task_status_absent_or_idempotent (w1 w2 : Bool) (id : Int) (σ : Sys)
    (hb : σ.mem.Bounded) :
    (id ∉ σ.mem.ids →
      update_task_status w1 (some id) σ =
        (σ, if σ.mem.task_count = 0 then Outcome.noTasks else Outcome.notFound)) ∧
    (id ∈ σ.mem.ids →
      (update_task_status w2 (some id) (update_task_status w1 (some id) σ).1).1.mem =
        (update_task_status w1 (some id) σ).1.mem ∧
      (update_task_status w1 (some id) σ).2 = Outcome.success id ∧
      (update_task_status w2 (some id) (update_task_status w1 (some id) σ).1).2 =
        Outcome.success id) := by
  refine ⟨update_task_status_of_not_mem w1 id σ hb, ?_⟩
  intro hid
  obtain ⟨k, hk, hkid, hfirst, ho, hmem, _⟩ := update_task_status_of_mem w1 id σ hb hid
  have hle := hb.toNat_le
  have hklen : k < σ.mem.task_list.length := by omega
  -- the state after the first call
  have hb1 : (update_task_status w1 (some id) σ).1.mem.Bounded := by
    rw [hmem]
    obtain ⟨a, b, c⟩ := hb
    exact ⟨by simpa using a, b, c⟩
  have hid1 : id ∈ (update_task_status w1 (some id) σ).1.mem.ids := by
    apply (mem_ids_iff _ hb1.toNat_le id).mpr
    refine ⟨k, by rw [hmem]; exact hk, ?_⟩
    rw [hmem]
    simp only
    rw [slot_set_eq _ _ _ hklen]
    exact hkid
  obtain ⟨k2, hk2, hk2id, hfirst2, ho2, hmem2, _⟩ :=
    update_task_status_of_mem w2 id _ hb1 hid1
  refine ⟨?_, ho, ho2⟩
  have hkk : k2 = k := by
    rw [hmem] at hk2 hk2id hfirst2
    simp only at hk2 hk2id hfirst2
    rcases Nat.lt_trichotomy k2 k with h | h | h
    · rw [slot_set_ne _ _ _ _ (by omega)] at hk2id
      exact absurd hk2id (hfirst k2 h)
    · exact h
    · have := hfirst2 k h
      rw [slot_set_eq _ _ _ hklen] at this
      exact absurd hkid this
  rw [hmem2, hkk, hmem]
  simp only
  rw [slot_set_eq _ _ _ hklen, List.set_set]

theorem update_task_status_absent_or_idempotent_witness :
    update_task_status true (some 7) ⟨twoTasks, none⟩ = (⟨twoTasks, none⟩, Outcome.notFound) ∧
    (update_task_status false (some 2) (update_task_status true (some 2) ⟨twoTasks, none⟩).1).1.mem =
      (update_task_status true (some 2) ⟨twoTasks, none⟩).1.mem :=
  ⟨(update_task_status_absent_or_idempotent true true 7 ⟨twoTasks, none⟩ (by decide)).1
      (by decide),
   ((update_task_status_absent_or_idempotent true false 2 ⟨twoTasks, none⟩ (by decide)).2
      (by decide)).1⟩

/-- C9: for an id held by some task, `update_task_status` sets the completed
flag of the first task with that id and changes nothing else: the task
sequence is the old one with that one flag set, so the order, every id, every
description and every other flag are as before, and so are the count and
`next_id`. -/
theorem update_task_status_marks_first (w : Bool) (id : Int) (σ : Sys) (hb : σ.mem.Bounded)
    (hid : id ∈ σ.mem.ids) :
    ∃ k t, σ.mem.tasks[k]? = some t ∧ t.id = id ∧
      (∀ j u, j < k → σ.mem.tasks[j]? = some u → u.id ≠ id) ∧
      (update_task_status w (some id) σ).1.mem.tasks =
        σ.mem.tasks.set k { t with completed := 1 } ∧
      (update_task_status w (some id) σ).1.mem.tasks.map Task.id =
        σ.mem.tasks.map Task.id ∧
      (update_task_status w (some id) σ).1.mem.tasks.map Task.description =
        σ.mem.tasks.map Task.description ∧
      (update_task_status w (some id) σ).1.mem.task_count = σ.mem.task_count ∧
      (update_task_status w (some id) σ).1.mem.next_id = σ.mem.next_id := by
  obtain ⟨k, hk, hkid, hfirst, _, hmem, _⟩ := update_task_status_of_mem w id σ hb hid
  have hle := hb.toNat_le
  have hget : σ.mem.tasks[k]? = some (slot σ.mem.task_list k) := by
    rw [tasks_getElem? σ.mem hle, if_pos hk]
  have htasks : (update_task_status w (some id) σ).1.mem.tasks =
      σ.mem.tasks.set k { slot σ.mem.task_list k with completed := 1 } := by
    rw [hmem]
    simp only [Store.tasks]
    rw [List.set_take]
  refine ⟨k, slot σ.mem.task_list k, hget, hkid, ?_, htasks, ?_, ?_, ?_, ?_⟩
  · intro j u hj hu
    rw [tasks_getElem? σ.mem hle, if_pos (by omega)] at hu
    cases hu
    exact hfirst j hj
  · rw [htasks]; exact map_set_same _ _ _ _ _ hget rfl
  · rw [htasks]; exact map_set_same _ _ _ _ _ hget rfl
  · rw [hmem]
  · rw [hmem]

theorem update_task_status_marks_first_witness :
    ∃ k t, twoTasks.tasks[k]? = some t ∧ t.id = 2 ∧
      (∀ j u, j < k → twoTasks.tasks[j]? = some u → u.id ≠ 2) ∧
      (update_task_status true (some 2) ⟨twoTasks, none⟩).1.mem.tasks =
        twoTasks.tasks.set k { t with completed := 1 } ∧
      (update_task_status true (some 2) ⟨twoTasks, none⟩).1.mem.tasks.map Task.id =
        twoTasks.tasks.map Task.id ∧
      (update_task_status true (some 2) ⟨twoTasks, none⟩).1.mem.tasks.map Task.description =
        twoTasks.tasks.map Task.description ∧
      (update_task_status true (some 2) ⟨twoTasks, none⟩).1.mem.task_count = 2 ∧
      (update_task_status true (some 2) ⟨twoTasks, none⟩).1.mem.next_id = 3 :=
  update_task_status_marks_first true 2 ⟨twoTasks, none⟩ (by decide) (by decide)

/-- C10: for an id held by some task, `remove_task` leaves the old task
sequence with the first task of that id erased, the other tasks unmodified and
in their order; the count decreases by one and `next_id` is unchanged. -/
theorem remove_task_erases_first (w : Bool) (id : Int) (σ : Sys) (hb : σ.mem.Bounded)
    (hid : id ∈ σ.mem.ids) :
    (remove_task w (some id) σ).2 = Outcome.success id ∧
    (remove_task w (some id) σ).1.mem.tasks =
      σ.mem.tasks.eraseP (fun t => decide (t.id = id)) ∧
    (remove_task w (some id) σ).1.mem.task_count = σ.mem.task_count - 1 ∧
    (remove_task w (some id) σ).1.mem.next_id = σ.mem.next_id := by
  obtain ⟨h1, _, h3, h4, h5, _⟩ := remove_task_of_mem w id σ hb hid
  exact ⟨h1, h3, h4, h5⟩

theorem remove_task_erases_first_witness :
    (remove_task true (some 1) ⟨twoTasks, none⟩).2 = Outcome.success 1 ∧
    (remove_task true (some 1) ⟨twoTasks, none⟩).1.mem.tasks =
      twoTasks.tasks.eraseP (fun t => decide (t.id = 1)) ∧
    (remove_task true (some 1) ⟨twoTasks, none⟩).1.mem.task_count = 2 - 1 ∧
    (remove_task true (some 1) ⟨twoTasks, none⟩).1.mem.next_id = 3 :=
  remove_task_erases_first true 1 ⟨twoTasks, none⟩ (by decide) (by decide)

/-! ## Invariants of the store -/

theorem update_task_status_of_none (w : Bool) (σ : Sys) :
    (update_task_status w none σ).1 = σ := by
  unfold update_task_status
  split <;> rfl

theorem remove_task_of_none (w : Bool) (σ : Sys) :
    (remove_task w none σ).1 = σ := by
  unfold remove_task
  split <;> rfl

theorem update_task_status_ids (w : Bool) (input : Option Int) (σ : Sys) (hb : σ.mem.Bounded) :
    (update_task_status w input σ).1.mem.ids = σ.mem.ids ∧
    (update_task_status w input σ).1.mem.task_list.length = σ.mem.task_list.length ∧
    (update_task_status w input σ).1.mem.task_count = σ.mem.task_count ∧
    (update_task_status w input σ).1.mem.next_id = σ.mem.next_id := by
  cases input with
  | none => rw [update_task_status_of_none]; exact ⟨rfl, rfl, rfl, rfl⟩
  | some id =>
    by_cases hid : id ∈ σ.mem.ids
    · obtain ⟨k, hk, hkid, _, _, hmem, _⟩ := update_task_status_of_mem w id σ hb hid
      have hget : σ.mem.tasks[k]? = some (slot σ.mem.task_list k) := by
        rw [tasks_getElem? σ.mem hb.toNat_le, if_pos hk]
      rw [hmem]
      refine ⟨?_, by simp, rfl, rfl⟩
      simp only [Store.ids, Store.tasks]
      rw [List.set_take]
      exact map_set_same _ _ _ _ _ hget rfl
    · rw [update_task_status_of_not_mem w id σ hb hid]
      exact ⟨rfl, rfl, rfl, rfl⟩

/-- What a command does to the ids, the count and `next_id` of a store. -/
theorem step_effect (op : Op) (σ : Sys) (hb : σ.mem.Bounded) :
    (step op σ).1.mem.task_list.length = σ.mem.task_list.length ∧
    (((step op σ).1.mem.ids = σ.mem.ids ++ [σ.mem.next_id] ∧
        (step op σ).1.mem.task_count = σ.mem.task_count + 1 ∧
        σ.mem.task_count < (MAX_TASKS : Int) ∧
        (step op σ).1.mem.next_id = wrapInt (σ.mem.next_id + 1) ∧
        (∃ w inp, op = Op.add w inp) ∧
        assignedBy op (step op σ).2 = [σ.mem.next_id]) ∨
     ((step op σ).1.mem.ids.Sublist σ.mem.ids ∧
        (step op σ).1.mem.task_count ≤ σ.mem.task_count ∧
        0 ≤ (step op σ).1.mem.task_count ∧
        (step op σ).1.mem.next_id = σ.mem.next_id ∧
        assignedBy op (step op σ).2 = [])) := by
  have hb0 := hb
  obtain ⟨b1, b2, b3⟩ := hb
  cases op with
  | add w inp =>
    simp only [step]
    by_cases hc : σ.mem.task_count < (MAX_TASKS : Int)
    · by_cases hin : inp = []
      · subst hin
        rw [add_task_of_eof w σ hc]
        exact ⟨rfl, Or.inr ⟨List.Sublist.refl _, le_refl _, b2, rfl, rfl⟩⟩
      · obtain ⟨h1, h2, h3, h4, h5, _⟩ := add_task_of_room w inp σ hb0 hc hin
        refine ⟨h2, Or.inl ⟨?_, h4, hc, h5, ⟨w, inp, rfl⟩, ?_⟩⟩
        · simp [Store.ids, h3]
        · rw [h1]; rfl
    · rw [add_task_of_full w inp σ (by omega)]
      exact ⟨rfl, Or.inr ⟨List.Sublist.refl _, le_refl _, b2, rfl, rfl⟩⟩
  | markComplete w inp =>
    simp only [step]
    obtain ⟨h1, h2, h3, h4⟩ := update_task_status_ids w inp σ hb0
    refine ⟨h2, Or.inr ⟨by rw [h1], by rw [h3], by rw [h3]; exact b2, h4, ?_⟩⟩
    cases (update_task_status w inp σ).2 <;> rfl
  | remove w inp =>
    simp only [step]
    have hass : assignedBy (Op.remove w inp) (remove_task w inp σ).2 = [] := by
      cases (remove_task w inp σ).2 <;> rfl
    cases inp with
    | none =>
      rw [remove_task_of_none] at *
      exact ⟨rfl, Or.inr ⟨List.Sublist.refl _, le_refl _, b2, rfl, hass⟩⟩
    | some id =>
      by_cases hid : id ∈ σ.mem.ids
      · obtain ⟨_, h2, h3, h4, h5, _⟩ := remove_task_of_mem w id σ hb0 hid
        have hpos : 0 < σ.mem.task_count := by
          obtain ⟨j, hj, _⟩ := (mem_ids_iff σ.mem hb0.toNat_le id).mp hid
          omega
        refine ⟨h2, Or.inr ⟨?_, by omega, by omega, h5, hass⟩⟩
        simp only [Store.ids, h3]
        exact (List.eraseP_sublist _).map _
      · rw [remove_task_of_not_mem w id σ hb0 hid] at *
        exact ⟨rfl, Or.inr ⟨List.Sublist.refl _, le_refl _, b2, rfl, hass⟩⟩

theorem step_bounded (op : Op) (σ : Sys) (hb : σ.mem.Bounded) : (step op σ).1.mem.Bounded := by
  obtain ⟨h1, h2⟩ := step_effect op σ hb
  obtain ⟨b1, b2, b3⟩ := hb
  rcases h2 with ⟨_, c2, c3, _⟩ | ⟨_, c2, c3, _⟩
  · exact ⟨by rw [h1]; exact b1, by omega, by omega⟩
  · exact ⟨by rw [h1]; exact b1, c3, by omega⟩

/-- C3, as the claim states it, fails: a store with `next_id = INT_MAX`
satisfies the invariant, and after a successful `add_task` the incremented
`next_id` is below the id just assigned. -/
theorem add_task_breaks_inv_at_int_max :
    lastIdStore.Inv ∧ lastIdStore.Bounded ∧
      ¬ (step (Op.add true "x\n".toList) ⟨lastIdStore, none⟩).1.mem.Inv := by
  decide

/-- C3, amended: from a store with pairwise distinct ids, `next_id` above
every id and at most 100 tasks, each command, whether it succeeds or fails,
leads to a store with the same three properties, provided that `next_id` is
below `INT_MAX` when the command is an add. -/
theorem step_preserves_inv (op : Op) (σ : Sys) (hb : σ.mem.Bounded) (hinv : σ.mem.Inv)
    (hlo : INT_MIN ≤ σ.mem.next_id)
    (hadd : ∀ w inp, op = Op.add w inp → σ.mem.next_id < INT_MAX) :
    (step op σ).1.mem.Inv := by
  obtain ⟨_, h2⟩ := step_effect op σ hb
  obtain ⟨i1, i2, i3⟩ := hinv
  rcases h2 with ⟨c1, c2, c3, c4, ⟨w, inp, hop⟩, _⟩ | ⟨c1, c2, _, c4, _⟩
  · have hhi := hadd w inp hop
    have hn : wrapInt (σ.mem.next_id + 1) = σ.mem.next_id + 1 := by
      apply wrapInt_of_inInt
      unfold InInt INT_MIN INT_MAX at *
      omega
    refine ⟨?_, ?_, by omega⟩
    · rw [c1]
      apply List.Nodup.append i1 (List.nodup_singleton _)
      intro x hx hx2
      have := i2 x hx
      simp at hx2
      omega
    · intro x hx
      rw [c1] at hx
      rw [c4, hn]
      rcases List.mem_append.mp hx with h | h
      · have := i2 x h; omega
      · simp at h; omega
  · refine ⟨c1.nodup i1, ?_, by omega⟩
    intro x hx
    rw [c4]
    exact i2 x (c1.subset hx)

theorem step_preserves_inv_witness :
    (step (Op.remove true (some 1)) ⟨twoTasks, none⟩).1.mem.Inv ∧
    (step (Op.add true "Feed cat\n".toList) ⟨twoTasks, none⟩).1.mem.Inv :=
  ⟨step_preserves_inv (Op.remove true (some 1)) ⟨twoTasks, none⟩ (by decide) (by decide)
      (by decide) (by intro w inp h; cases h),
   step_preserves_inv (Op.add true "Feed cat\n".toList) ⟨twoTasks, none⟩ (by decide)
      (by decide) (by decide) (by intro w inp _; decide)⟩

/-! ## Assignment of ids -/

theorem wrapInt_wrapInt_add (a b : Int) : wrapInt (wrapInt a + b) = wrapInt (a + b) := by
  unfold wrapInt
  omega

/-- The ids assigned by a command sequence are the successive values of
`next_id`, each reduced to the `int` range. -/
theorem assigned_eq : ∀ (ops : List Op) (σ : Sys), σ.mem.Bounded → InInt σ.mem.next_id →
    assigned ops σ =
      (List.range (assigned ops σ).length).map (fun (j : Nat) => wrapInt (σ.mem.next_id + (j : Int))) := by
  intro ops
  induction ops with
  | nil => intro σ _ _; simp [assigned]
  | cons op ops ih =>
    intro σ hb hn
    have hb1 := step_bounded op σ hb
    obtain ⟨_, h2⟩ := step_effect op σ hb
    unfold assigned
    rcases h2 with ⟨_, _, _, c4, _, c6⟩ | ⟨_, _, _, c4, c5⟩
    · have ih1 := ih (step op σ).1 hb1 (by rw [c4]; exact wrapInt_inInt _)
      rw [c6]
      simp only [List.singleton_append, List.length_cons]
      rw [List.range_succ_eq_map, List.map_cons, List.map_map]
      congr 1
      · simp [wrapInt_of_inInt hn]
      · rw [c4] at ih1
        rw [ih1]
        simp only [List.length_map, List.length_range]
        apply List.map_congr_left
        intro j _
        simp only [Function.comp, wrapInt_wrapInt_add]
        congr 1
        push_cast
        omega
    · have ih1 := ih (step op σ).1 hb1 (by rw [c4]; exact hn)
      rw [c5, c4] at *
      simpa using ih1

theorem assigned_addRemoveRounds : ∀ (n : Nat) (σ : Sys), σ.mem.Bounded →
    σ.mem.task_count = 0 → (assigned (addRemoveRounds n σ.mem.next_id) σ).length = n := by
  intro n
  induction n with
  | zero => intro σ _ _; rfl
  | succ n ih =>
    intro σ hb hc
    have hroom : σ.mem.task_count < (MAX_TASKS : Int) := by rw [hc]; decide
    obtain ⟨a1, a2, a3, a4, a5, _⟩ :=
      add_task_of_room true ['a', '\n'] σ hb hroom (by simp)
    have hb1 : (add_task true ['a', '\n'] σ).1.mem.Bounded := by
      obtain ⟨b1, b2, b3⟩ := hb
      refine ⟨by rw [a2]; exact b1, by omega, by rw [a4, hc]; decide⟩
    have hid : σ.mem.next_id ∈ (add_task true ['a', '\n'] σ).1.mem.ids := by
      simp [Store.ids, a3]
    obtain ⟨r1, r2, r3, r4, r5, _⟩ :=
      remove_task_of_mem true σ.mem.next_id (add_task true ['a', '\n'] σ).1 hb1 hid
    have hb2 : (remove_task true (some σ.mem.next_id) (add_task true ['a', '\n'] σ).1).1.mem.Bounded := by
      obtain ⟨b1, b2, b3⟩ := hb1
      refine ⟨by rw [r2]; exact b1, by omega, by omega⟩
    have hc2 : (remove_task true (some σ.mem.next_id) (add_task true ['a', '\n'] σ).1).1.mem.task_count = 0 := by
      omega
    have ih1 := ih _ hb2 hc2
    rw [r5, a5] at ih1
    simp only [addRemoveRounds, assigned, step, a1, r1, assignedBy]
    simp [ih1]

/-- C2, as the claim states it, fails: after 2^31 - 1 successful adds
`next_id` has reached `INT_MAX` and the next add assigns an id below the
previous one. The sequence adds and removes a task 2^31 times, starting from
the empty store with `next_id = 1`. -/
theorem assigned_not_increasing_after_overflow :
    ¬ (assigned (addRemoveRounds 2147483648 1) ⟨Store.init, none⟩).Pairwise (fun a b => a < b) := by
  intro h
  have hb : (⟨Store.init, none⟩ : Sys).mem.Bounded := by decide
  have hlen := assigned_addRemoveRounds 2147483648 ⟨Store.init, none⟩ hb rfl
  have heq := assigned_eq (addRemoveRounds 2147483648 1) ⟨Store.init, none⟩ hb (by decide)
  have e1 : (⟨Store.init, none⟩ : Sys).mem.next_id = 1 := rfl
  rw [e1] at hlen
  rw [hlen] at heq
  rw [heq] at h
  rw [List.pairwise_iff_getElem] at h
  have := h 2147483646 2147483647 (by simp) (by simp) (by omega)
  simp only [List.getElem_map, List.getElem_range, e1] at this
  revert this
  decide

/-- C2, amended: for every command sequence applied to an empty store with
`next_id = 1` in which at most 2^31 - 1 adds succeed, the ids assigned by the
successful adds are strictly increasing in the order of assignment, hence
pairwise distinct: no id is reused, also after its task was removed. -/
theorem assigned_strictly_increasing (ops : List Op) (σ : Sys)
    (hlen : σ.mem.task_list.length = MAX_TASKS) (hc : σ.mem.task_count = 0)
    (hn : σ.mem.next_id = 1) (hm : (assigned ops σ).length ≤ 2147483647) :
    (assigned ops σ).Pairwise (fun a b => a < b) ∧ (assigned ops σ).Nodup := by
  have hb : σ.mem.Bounded := ⟨hlen, by omega, by rw [hc]; decide⟩
  have heq := assigned_eq ops σ hb (by rw [hn]; decide)
  have hp : (assigned ops σ).Pairwise (fun a b => a < b) := by
    rw [heq, List.pairwise_map]
    apply List.Pairwise.imp_of_mem _ (List.pairwise_lt_range _)
    intro a b ha hb hab
    simp only [List.mem_range] at ha hb
    rw [hn, wrapInt_of_inInt, wrapInt_of_inInt]
    · omega
    · unfold InInt INT_MIN INT_MAX; omega
    · unfold InInt INT_MIN INT_MAX; omega
  exact ⟨hp, hp.imp (fun h => ne_of_lt h)⟩

theorem assigned_strictly_increasing_witness :
    (assigned [Op.add true "Buy milk\n".toList, Op.add true "Walk dog\n".toList,
        Op.markComplete true (some 1), Op.remove true (some 1),
        Op.add true "Feed cat\n".toList] ⟨Store.init, none⟩).Pairwise (fun a b => a < b) ∧
    (assigned [Op.add true "Buy milk\n".toList, Op.add true "Walk dog\n".toList,
        Op.markComplete true (some 1), Op.remove true (some 1),
        Op.add true "Feed cat\n".toList] ⟨Store.init, none⟩).Nodup :=
  assigned_strictly_increasing _ ⟨Store.init, none⟩ (by decide) (by decide) (by decide)
    (by decide)

/-! ## Printing and scanning of integers -/

theorem isdigit_digitChar (d : Nat) (h : d < 10) : isdigit (digitChar d) = true := by
  interval_cases d <;> decide

theorem toNat_digitChar (d : Nat) (h : d < 10) : (digitChar d).toNat - 48 = d := by
  interval_cases d <;> decide

theorem isdigit_not_space {c : Char} (h : isdigit c = true) : isspace c = false := by
  simp only [isdigit, Bool.and_eq_true, decide_eq_true_eq] at h
  simp only [isspace, Bool.or_eq_false_iff, decide_eq_false_iff_not]
  refine ⟨⟨⟨⟨⟨?_, ?_⟩, ?_⟩, ?_⟩, ?_⟩, ?_⟩ <;>
    (intro hc; subst hc; revert h; decide)

theorem isdigit_ne {c : Char} (h : isdigit c = true) :
    c ≠ '\n' ∧ c ≠ '\x00' ∧ c ≠ '-' ∧ c ≠ '+' ∧ c ≠ '|' := by
  simp only [isdigit, Bool.and_eq_true, decide_eq_true_eq] at h
  refine ⟨?_, ?_, ?_, ?_, ?_⟩ <;> (intro hc; subst hc; revert h; decide)

theorem fmt_nat_fuel_digits : ∀ (f n : Nat), ∀ c ∈ fmt_nat_fuel f n, isdigit c = true := by
  intro f
  induction f with
  | zero => intro n c hc; simp [fmt_nat_fuel] at hc
  | succ f ih =>
    intro n c hc
    unfold fmt_nat_fuel at hc
    by_cases hn : n < 10
    · rw [if_pos hn] at hc
      simp only [List.mem_singleton] at hc
      subst hc
      exact isdigit_digitChar n hn
    · rw [if_neg hn] at hc
      rcases List.mem_append.mp hc with h | h
      · exact ih _ c h
      · simp only [List.mem_singleton] at h
        subst h
        exact isdigit_digitChar _ (Nat.mod_lt _ (by decide))

theorem fmt_nat_fuel_ne_nil (f n : Nat) : fmt_nat_fuel (f + 1) n ≠ [] := by
  unfold fmt_nat_fuel
  by_cases hn : n < 10
  · rw [if_pos hn]; simp
  · rw [if_neg hn]; simp

/-- The value of a run of digits read after the value `a`. -/
theorem scanDigits_append : ∀ (ds : List Char), (∀ c ∈ ds, isdigit c = true) →
    ∀ (a : Nat) (rest : List Char), scanDigits a (ds ++ rest) =
      scanDigits (ds.foldl (fun a c => a * 10 + (c.toNat - 48)) a) rest := by
  intro ds
  induction ds with
  | nil => intro _ a rest; rfl
  | cons d ds ih =>
    intro h a rest
    have hd : isdigit d = true := h d (by simp)
    simp only [List.cons_append, scanDigits, hd, if_true, List.foldl_cons]
    exact ih (fun c hc => h c (by simp [hc])) _ rest

theorem foldl_fmt_nat_fuel : ∀ (f n : Nat), n < f →
    (fmt_nat_fuel f n).foldl (fun a c => a * 10 + (c.toNat - 48)) 0 = n := by
  intro f
  induction f with
  | zero => intro n h; omega
  | succ f ih =>
    intro n h
    unfold fmt_nat_fuel
    by_cases hn : n < 10
    · rw [if_pos hn]
      simp [toNat_digitChar n hn]
    · rw [if_neg hn]
      rw [List.foldl_append, ih (n / 10) (by omega)]
      simp only [List.foldl_cons, List.foldl_nil]
      rw [toNat_digitChar _ (Nat.mod_lt _ (by decide))]
      omega

theorem scanDigits_fmt_nat (n : Nat) (c : Char) (rest : List Char) (hc : isdigit c = false) :
    scanDigits 0 (fmt_nat n ++ c :: rest) = (n, c :: rest) := by
  unfold fmt_nat
  rw [scanDigits_append _ (fmt_nat_fuel_digits _ _), foldl_fmt_nat_fuel _ _ (by omega)]
  simp [scanDigits, hc]

theorem fmt_nat_cons (n : Nat) :
    ∃ d ds, fmt_nat n = d :: ds ∧ isdigit d = true := by
  cases h : fmt_nat n with
  | nil => exact absurd h (fmt_nat_fuel_ne_nil n n)
  | cons d ds =>
    refine ⟨d, ds, rfl, ?_⟩
    apply fmt_nat_fuel_digits (n + 1) n
    unfold fmt_nat at h
    rw [h]; simp

theorem wrapInt_clampLong_of_inInt {x : Int} (h : InInt x) : wrapInt (clampLong x) = x := by
  have hc : clampLong x = x := by
    unfold InInt INT_MIN INT_MAX at h
    unfold clampLong
    rw [if_neg (by omega), if_neg (by omega)]
  rw [hc]
  exact wrapInt_of_inInt h

theorem scanInt_minus (d : Char) (ds : List Char) (hdig : isdigit d = true) :
    scanInt ('-' :: d :: ds) =
      (some (wrapInt (clampLong (-((scanDigits 0 (d :: ds)).1 : Int)))),
        (scanDigits 0 (d :: ds)).2) := by
  have hsp : isspace '-' = false := by decide
  unfold scanInt
  simp only [skipSpace, hsp]
  simp [hdig]

theorem scanInt_digit (d : Char) (ds : List Char) (hdig : isdigit d = true) :
    scanInt (d :: ds) =
      (some (wrapInt (clampLong ((scanDigits 0 (d :: ds)).1 : Int))),
        (scanDigits 0 (d :: ds)).2) := by
  obtain ⟨_, _, n1, n2, _⟩ := isdigit_ne hdig
  unfold scanInt
  simp only [skipSpace, isdigit_not_space hdig]
  simp [hdig, n1, n2]

/-- Scanning with `%d` the digits `printf` wrote for an `int` gives the
value back and stops in front of the character that follows. -/
theorem scanInt_fmt_d (x : Int) (c : Char) (rest : List Char) (hx : InInt x)
    (hc : isdigit c = false) :
    scanInt (fmt_d x ++ c :: rest) = (some x, c :: rest) := by
  unfold fmt_d
  by_cases hneg : x < 0
  · rw [if_pos hneg]
    obtain ⟨d, ds, hd, hdig⟩ := fmt_nat_cons (-x).toNat
    have hs := scanDigits_fmt_nat (-x).toNat c rest hc
    rw [hd] at hs
    rw [hd]
    have hv : wrapInt (clampLong (-(((-x).toNat : Nat) : Int))) = x := by
      have : (((-x).toNat : Nat) : Int) = -x := by omega
      rw [this, neg_neg]
      exact wrapInt_clampLong_of_inInt hx
    show scanInt ('-' :: d :: (ds ++ c :: rest)) = _
    rw [scanInt_minus _ _ hdig]
    rw [show d :: (ds ++ c :: rest) = d :: ds ++ c :: rest from rfl, hs, hv]
  · rw [if_neg hneg]
    obtain ⟨d, ds, hd, hdig⟩ := fmt_nat_cons x.toNat
    have hs := scanDigits_fmt_nat x.toNat c rest hc
    rw [hd] at hs
    rw [hd]
    have hv : wrapInt (clampLong ((x.toNat : Nat) : Int)) = x := by
      have : ((x.toNat : Nat) : Int) = x := by omega
      rw [this]
      exact wrapInt_clampLong_of_inInt hx
    show scanInt (d :: (ds ++ c :: rest)) = _
    rw [scanInt_digit _ _ hdig]
    rw [show d :: (ds ++ c :: rest) = d :: ds ++ c :: rest from rfl, hs, hv]

theorem skipSpace_fmt_d (x : Int) (rest : List Char) :
    skipSpace (fmt_d x ++ rest) = fmt_d x ++ rest := by
  unfold fmt_d
  by_cases hneg : x < 0
  · rw [if_pos hneg]
    have hsp : isspace '-' = false := by decide
    simp [skipSpace, hsp]
  · rw [if_neg hneg]
    obtain ⟨d, ds, hd, hdig⟩ := fmt_nat_cons x.toNat
    rw [hd]
    simp [skipSpace, isdigit_not_space hdig]

theorem fmt_d_chars (x : Int) : ∀ c ∈ fmt_d x, c ≠ '\n' ∧ c ≠ '\x00' := by
  intro c hc
  unfold fmt_d at hc
  by_cases hneg : x < 0
  · rw [if_pos hneg] at hc
    rcases List.mem_cons.mp hc with h | h
    · subst h; decide
    · have := isdigit_ne (fmt_nat_fuel_digits _ _ c h)
      exact ⟨this.1, this.2.1⟩
  · rw [if_neg hneg] at hc
    have := isdigit_ne (fmt_nat_fuel_digits _ _ c hc)
    exact ⟨this.1, this.2.1⟩

/-! ## Reading back one record line -/

theorem readLine_line : ∀ (k : Nat) (l more : List Char), '\n' ∉ l → l.length < k →
    readLine k (l ++ '\n' :: more) = (l ++ ['\n'], more) := by
  intro k
  induction k with
  | zero => intro l more _ h; omega
  | succ k ih =>
    intro l more hnl hlen
    cases l with
    | nil => simp [readLine]
    | cons c cs =>
      have hc : c ≠ '\n' := fun h => hnl (by simp [h])
      have hcs : '\n' ∉ cs := fun h => hnl (by simp [h])
      show readLine (k + 1) (c :: (cs ++ '\n' :: more)) = _
      simp only [readLine, if_neg hc]
      rw [ih cs more hcs (by simpa using hlen)]
      rfl

theorem scanSet_line : ∀ (k : Nat) (l more : List Char), '\n' ∉ l → l.length ≤ k →
    scanSet k (l ++ '\n' :: more) = l := by
  intro k
  induction k with
  | zero =>
    intro l more _ h
    have : l = [] := List.eq_nil_of_length_eq_zero (by omega)
    subst this; rfl
  | succ k ih =>
    intro l more hnl hlen
    cases l with
    | nil => simp [scanSet]
    | cons c cs =>
      have hc : c ≠ '\n' := fun h => hnl (by simp [h])
      have hcs : '\n' ∉ cs := fun h => hnl (by simp [h])
      show scanSet (k + 1) (c :: (cs ++ '\n' :: more)) = _
      simp only [scanSet, if_neg hc]
      rw [ih cs more hcs (by simpa using hlen)]

theorem cstr_eq_self (l : List Char) (h : '\x00' ∉ l) : cstr l = l := by
  unfold cstr
  rw [List.takeWhile_eq_self_iff]
  intro c hc
  have : c ≠ '\x00' := fun e => h (e ▸ hc)
  simpa using this

theorem fmt_record_eq (t : Task) :
    fmt_record t = (fmt_d t.id ++ '|' :: (fmt_d t.completed ++ '|' :: t.description)) ++ ['\n'] := by
  simp [fmt_record]

theorem fmt_record_body_chars (t : Task) (hwf : t.WellFormed) :
    '\n' ∉ (fmt_d t.id ++ '|' :: (fmt_d t.completed ++ '|' :: t.description)) ∧
    '\x00' ∉ (fmt_d t.id ++ '|' :: (fmt_d t.completed ++ '|' :: t.description)) := by
  obtain ⟨_, _, h3, h4, _⟩ := hwf
  constructor
  · intro h
    simp only [List.mem_append, List.mem_cons] at h
    rcases h with h | h | h | h | h
    · exact (fmt_d_chars _ _ h).1 rfl
    · revert h; decide
    · exact (fmt_d_chars _ _ h).1 rfl
    · revert h; decide
    · exact h3 h
  · intro h
    simp only [List.mem_append, List.mem_cons] at h
    rcases h with h | h | h | h | h
    · exact (fmt_d_chars _ _ h).2 rfl
    · revert h; decide
    · exact (fmt_d_chars _ _ h).2 rfl
    · revert h; decide
    · exact h4 h

/-- Reading a record line with `fgets` returns the whole line when it fits
the buffer. -/
theorem fgets_fmt_record (t : Task) (more : List Char) (hwf : t.WellFormed)
    (hfit : (fmt_record t).length ≤ 109) :
    fgets (MAX_DESC_LEN + 10) (fmt_record t ++ more) = (some (fmt_record t), more) := by
  have hbody := (fmt_record_body_chars t hwf).1
  rw [fmt_record_eq] at hfit ⊢
  rw [List.append_assoc]
  simp only [List.singleton_append]
  have hlen : (fmt_d t.id ++ '|' :: (fmt_d t.completed ++ '|' :: t.description)).length < 109 := by
    simp only [List.length_append, List.length_cons, List.length_nil] at hfit ⊢
    omega
  have hr := readLine_line 109 _ more hbody hlen
  cases hl : (fmt_d t.id ++ '|' :: (fmt_d t.completed ++ '|' :: t.description)) ++ '\n' :: more with
  | nil => simp at hl
  | cons c cs =>
    rw [hl] at hr
    simp only [fgets, MAX_DESC_LEN]
    rw [hr]

/-- Parsing a written record line with `sscanf` assigns the three fields. -/
theorem sscanf_fmt_record (t t0 : Task) (hwf : t.WellFormed) (hne : t.description ≠ []) :
    sscanf_record (cstr (fmt_record t)) t0 = (3, t) := by
  have hbody := fmt_record_body_chars t hwf
  obtain ⟨h1, h2, h3, h4, h5⟩ := hwf
  have hc : cstr (fmt_record t) = fmt_record t := by
    apply cstr_eq_self
    rw [fmt_record_eq]
    intro h
    rcases List.mem_append.mp h with h | h
    · exact hbody.2 h
    · revert h; decide
  rw [hc]
  have hbar : isdigit '|' = false := by decide
  unfold sscanf_record fmt_record
  rw [scanInt_fmt_d _ _ _ h1 hbar]
  simp only [ne_eq, not_true_eq_false, if_false]
  rw [scanInt_fmt_d _ _ _ h2 hbar]
  simp only [ne_eq, not_true_eq_false, if_false]
  rw [scanSet_line 99 _ [] h3 h5]
  cases hd : t.description with
  | nil => exact absurd hd hne
  | cons d ds =>
    simp only [← hd]

/-! ## Loading what was saved -/

theorem fscanf_d_nl_line (x : Int) (rest : List Char) (hx : InInt x) :
    fscanf_d_nl (fmt_d x ++ '\n' :: rest) = (some x, skipSpace rest) := by
  have hnl : isdigit '\n' = false := by decide
  have hsp : isspace '\n' = true := by decide
  unfold fscanf_d_nl
  rw [scanInt_fmt_d x '\n' rest hx hnl]
  simp only [skipSpace, hsp, if_true]

theorem skipSpace_save_loop (tl : List Task) (n i : Nat) :
    skipSpace (save_loop tl n i) = save_loop tl n i := by
  cases n with
  | zero => rfl
  | succ n =>
    unfold save_loop fmt_record
    rw [List.append_assoc]
    exact skipSpace_fmt_d _ _

/-- The loop of `load_tasks`, run on the records the loop of `save_tasks`
wrote for the slots `i` to `i + n - 1`, stores these slots again and leaves
the count as declared. -/
theorem load_loop_save_loop (orig : List Task) (tc : Int) :
    ∀ (n i : Nat) (tl : List Task), i + n ≤ orig.length → tl.length = orig.length →
      tl.take i = orig.take i →
      (∀ j, i ≤ j → j < i + n → (slot orig j).WellFormed ∧ (slot orig j).description ≠ [] ∧
        (fmt_record (slot orig j)).length ≤ 109) →
      (load_loop n i (save_loop orig n i) tl tc).2 = tc ∧
      (load_loop n i (save_loop orig n i) tl tc).1.take (i + n) = orig.take (i + n) := by
  intro n
  induction n with
  | zero => intro i tl _ _ ht _; exact ⟨rfl, ht⟩
  | succ n ih =>
    intro i tl hlen hl ht hgood
    obtain ⟨g1, g2, g3⟩ := hgood i (le_refl _) (by omega)
    have hstep : load_loop (n + 1) i (save_loop orig (n + 1) i) tl tc =
        load_loop n (i + 1) (save_loop orig n (i + 1)) (tl.set i (slot orig i)) tc := by
      rw [show save_loop orig (n + 1) i =
        fmt_record (slot orig i) ++ save_loop orig n (i + 1) from rfl]
      rw [load_loop, fgets_fmt_record _ _ g1 g3]
      simp only [sscanf_fmt_record _ _ g1 g2, ne_eq, not_true_eq_false, if_false]
    rw [hstep]
    have hi : i < orig.length := by omega
    have htake : (tl.set i (slot orig i)).take (i + 1) = orig.take (i + 1) := by
      rw [take_succ_set _ _ _ (by omega), ht, List.take_succ, List.getElem?_eq_getElem hi,
        slot_eq_getElem _ _ hi]
      rfl
    have := ih (i + 1) (tl.set i (slot orig i)) (by omega) (by simpa using hl) htake
      (fun j h1 h2 => hgood j (by omega) (by omega))
    rw [show i + (n + 1) = i + 1 + n by omega]
    exact this

/-- Round trip of the codec: `load_tasks` applied to the file `save_tasks`
wrote gives back the task sequence, the count and `next_id`. -/
theorem load_tasks_encode (S mem : Store) (hb : S.Bounded) (hn : InInt S.next_id)
    (hm : mem.task_list.length = MAX_TASKS)
    (hwf : ∀ t ∈ S.tasks, t.WellFormed) (hne : ∀ t ∈ S.tasks, t.description ≠ [])
    (hfit : ∀ t ∈ S.tasks, (fmt_record t).length ≤ 109) :
    (load_tasks (some (encode S)) mem).tasks = S.tasks ∧
    (load_tasks (some (encode S)) mem).task_count = S.task_count ∧
    (load_tasks (some (encode S)) mem).next_id = S.next_id := by
  have hle := hb.toNat_le
  obtain ⟨b1, b2, b3⟩ := hb
  have hc : InInt S.task_count := by
    unfold InInt INT_MIN INT_MAX
    unfold MAX_TASKS at b3
    omega
  have hgood : ∀ j, 0 ≤ j → j < 0 + S.task_count.toNat →
      (slot S.task_list j).WellFormed ∧ (slot S.task_list j).description ≠ [] ∧
        (fmt_record (slot S.task_list j)).length ≤ 109 := by
    intro j _ hj
    have hmem : slot S.task_list j ∈ S.tasks := by
      apply List.mem_iff_getElem?.mpr
      exact ⟨j, by rw [tasks_getElem? S hle, if_pos (by omega)]⟩
    exact ⟨hwf _ hmem, hne _ hmem, hfit _ hmem⟩
  have hloop := load_loop_save_loop S.task_list S.task_count S.task_count.toNat 0
    mem.task_list (by omega) (by rw [hm, b1]) (by simp) hgood
  have h1 : fscanf_d_nl (encode S) =
      (some S.task_count,
        fmt_d S.next_id ++ '\n' :: save_loop S.task_list S.task_count.toNat 0) := by
    unfold encode
    rw [fscanf_d_nl_line _ _ hc, skipSpace_fmt_d]
  have h2 : fscanf_d_nl (fmt_d S.next_id ++ '\n' :: save_loop S.task_list S.task_count.toNat 0) =
      (some S.next_id, save_loop S.task_list S.task_count.toNat 0) := by
    rw [fscanf_d_nl_line _ _ hn, skipSpace_save_loop]
  unfold load_tasks
  simp only [h1, h2, Option.getD_some, Store.tasks]
  rw [hloop.1]
  refine ⟨?_, by trivial, by trivial⟩
  have := hloop.2
  rw [Nat.zero_add] at this
  exact this

/-! ## The persistence codec -/

/-- C1: the round trip fails on the code for two valid stores. A store whose
task has an empty description is loaded back without that task; a store whose
task has an eight-digit id and a 99-byte description is loaded back with the
description cut, because its record line exceeds the 109 bytes `fgets` reads. -/
theorem load_save_loses_tasks :
    (emptyDescStore.Inv ∧ (∀ t ∈ emptyDescStore.tasks, t.WellFormed ∧ 0 < t.id) ∧
      (load_tasks (save_tasks true emptyDescStore none) Store.init).tasks = []) ∧
    (longLineStore.Inv ∧ (∀ t ∈ longLineStore.tasks, t.WellFormed ∧ 0 < t.id) ∧
      (load_tasks (save_tasks true longLineStore none) Store.init).tasks =
        [⟨10000000, List.replicate 98 'a', 0⟩] ∧
      (load_tasks (save_tasks true longLineStore none) Store.init).tasks ≠
        longLineStore.tasks) := by
  decide

/-- Round trip where it holds: for every store with at most 100 tasks whose
descriptions are non-empty, newline-free and within 99 bytes, and whose record
lines `id|completed|description` with their newline are at most 109 bytes
long, loading the text `save_tasks` writes gives back the same tasks in the
same order, the same count and the same `next_id`. -/
theorem load_save_round_trip (S mem : Store) (disk : Option (List Char)) (hb : S.Bounded)
    (hn : InInt S.next_id) (hm : mem.task_list.length = MAX_TASKS)
    (hwf : ∀ t ∈ S.tasks, t.WellFormed) (hne : ∀ t ∈ S.tasks, t.description ≠ [])
    (hfit : ∀ t ∈ S.tasks, (fmt_record t).length ≤ 109) :
    (load_tasks (save_tasks true S disk) mem).tasks = S.tasks ∧
    (load_tasks (save_tasks true S disk) mem).task_count = S.task_count ∧
    (load_tasks (save_tasks true S disk) mem).next_id = S.next_id :=
  load_tasks_encode S mem hb hn hm hwf hne hfit

theorem load_save_round_trip_witness :
    (load_tasks (save_tasks true twoTasks none) Store.init).tasks = twoTasks.tasks ∧
    (load_tasks (save_tasks true twoTasks none) Store.init).task_count = 2 ∧
    (load_tasks (save_tasks true twoTasks none) Store.init).next_id = 3 :=
  load_save_round_trip twoTasks Store.init none (by decide) (by decide) (by decide)
    (by decide) (by decide) (by decide)

/-- C4: `load_tasks` keeps the count the file declares without checking it:
for the file "-5", "1" the loop body never runs and the loaded count is -5,
below 0. -/
theorem load_tasks_count_unchecked :
    (load_tasks (some "-5\n1\n".toList) Store.init).task_count = -5 ∧
    (load_tasks (some "-5\n1\n".toList) Store.init).task_count < 0 ∧
    (load_tasks (some "-5\n1\n".toList) Store.init).next_id = 1 := by
  decide

/-- C5, as the claim states it, fails: `load_tasks` takes the ids and `next_id`
as the file gives them; here two loaded tasks share the id 1, `next_id` is not
above it, and the add that follows assigns the id 1 again. -/
theorem load_tasks_duplicate_ids :
    (load_tasks (some "2\n1\n1|0|a\n1|1|b\n".toList) Store.init).ids = [1, 1] ∧
    (load_tasks (some "2\n1\n1|0|a\n1|1|b\n".toList) Store.init).next_id = 1 ∧
    ¬ (load_tasks (some "2\n1\n1|0|a\n1|1|b\n".toList) Store.init).Inv ∧
    (add_task true "c\n".toList
      ⟨load_tasks (some "2\n1\n1|0|a\n1|1|b\n".toList) Store.init, none⟩).1.mem.ids =
        [1, 1, 1] := by
  decide

/-- C5, amended: when the source is the text `save_tasks` wrote for a store
with pairwise distinct ids and `next_id` above every id (at most 100 tasks,
non-empty descriptions, record lines of at most 109 bytes), the store
`load_tasks` produces has pairwise distinct ids and `next_id` above every
loaded id. -/
theorem load_tasks_of_saved_inv (S mem : Store) (disk : Option (List Char)) (hb : S.Bounded)
    (hn : InInt S.next_id) (hm : mem.task_list.length = MAX_TASKS)
    (hwf : ∀ t ∈ S.tasks, t.WellFormed) (hne : ∀ t ∈ S.tasks, t.description ≠ [])
    (hfit : ∀ t ∈ S.tasks, (fmt_record t).length ≤ 109) (hinv : S.Inv) :
    (load_tasks (save_tasks true S disk) mem).Inv := by
  obtain ⟨h1, h2, h3⟩ := load_tasks_encode S mem hb hn hm hwf hne hfit
  have hs : save_tasks true S disk = some (encode S) := rfl
  obtain ⟨i1, i2, i3⟩ := hinv
  unfold Store.Inv Store.ids at *
  rw [hs, h1, h2, h3]
  exact ⟨i1, i2, i3⟩

theorem load_tasks_of_saved_inv_witness :
    (load_tasks (save_tasks true twoTasks none) Store.init).Inv :=
  load_tasks_of_saved_inv twoTasks Store.init none (by decide) (by decide) (by decide)
    (by decide) (by decide) (by decide) (by decide)

/-! ## The digits `fmt_d` writes -/

theorem digitChar_eq (d : Nat) (h : d < 10) : digitChar d = Nat.digitChar d := by
  interval_cases d <;> rfl

theorem toDigitsCore_eq : ∀ (f n : Nat) (ds : List Char), n < f →
    Nat.toDigitsCore 10 f n ds = fmt_nat_fuel f n ++ ds := by
  intro f
  induction f with
  | zero => intro n ds h; omega
  | succ f ih =>
    intro n ds h
    unfold Nat.toDigitsCore fmt_nat_fuel
    by_cases h10 : n < 10
    · have h0 : n / 10 = 0 := by omega
      have hm : n % 10 = n := by omega
      simp only [h0, if_true, if_pos h10, hm]
      rw [digitChar_eq n h10]
      rfl
    · have h0 : ¬ n / 10 = 0 := by omega
      simp only [if_neg h0, if_neg h10]
      rw [ih (n / 10) _ (by omega), digitChar_eq _ (Nat.mod_lt _ (by decide))]
      simp

/-- The model of `printf("%d")` writes the usual decimal numeral. -/
theorem fmt_d_eq_toString (x : Int) : String.mk (fmt_d x) = toString x := by
  unfold fmt_d fmt_nat
  cases x with
  | ofNat m =>
    have : ¬ (Int.ofNat m < 0) := by simp
    rw [if_neg this]
    show String.mk (fmt_nat_fuel (m + 1) m) = (Nat.toDigits 10 m).asString
    unfold Nat.toDigits
    rw [toDigitsCore_eq _ _ _ (by omega)]
    simp [List.asString]
  | negSucc m =>
    have : Int.negSucc m < 0 := Int.negSucc_lt_zero m
    rw [if_pos this]
    have hn : (-Int.negSucc m).toNat = m + 1 := by
      rw [Int.neg_negSucc]; rfl
    rw [hn]
    show String.mk ('-' :: fmt_nat_fuel (m + 1 + 1) (m + 1)) =
      "-" ++ (Nat.toDigits 10 (m + 1)).asString
    unfold Nat.toDigits
    rw [toDigitsCore_eq _ _ _ (by omega)]
    simp only [List.append_nil, List.asString]
    rfl

/-! ## Removing twice -/

theorem not_mem_map_eraseP (id : Int) : ∀ (l : List Task), (l.map Task.id).Nodup →
    id ∉ (l.eraseP (fun t => decide (t.id = id))).map Task.id := by
  intro l
  induction l with
  | nil => intro _; simp
  | cons x xs ih =>
    intro hnd
    rw [List.map_cons, List.nodup_cons] at hnd
    by_cases hx : x.id = id
    · rw [List.eraseP_cons_of_pos (by simpa using hx)]
      rw [← hx]
      exact hnd.1
    · rw [List.eraseP_cons_of_neg (by simpa using hx), List.map_cons, List.mem_cons]
      intro h
      rcases h with h | h
      · exact hx h.symm
      · exact ih hnd.2 h

/-- C11, as the claim states it, fails: when the removed task was the only
one, the second `remove_task` finds an empty store, returns before asking for
an id and reports no "not found" error. -/
theorem remove_task_twice_last_task :
    oneTask.ids.Nodup ∧ (1 : Int) ∈ oneTask.ids ∧
    (remove_task true (some 1) ⟨oneTask, none⟩).2 = Outcome.success 1 ∧
    (remove_task true (some 1) (remove_task true (some 1) ⟨oneTask, none⟩).1).2 =
      Outcome.noTasks ∧
    (remove_task true (some 1) (remove_task true (some 1) ⟨oneTask, none⟩).1).2 ≠
      Outcome.notFound := by
  decide

/-- C11, amended: for a store with pairwise distinct ids and an id held by
some task, the first `remove_task` succeeds and leaves the other tasks in
their order; the second leaves the whole state as the first left it and
reports "not found", except that on a store the first call emptied it returns
before asking for an id, reporting only that there are no tasks. -/
theorem remove_task_twice (w1 w2 : Bool) (id : Int) (σ : Sys) (hb : σ.mem.Bounded)
    (hnd : σ.mem.ids.Nodup) (hid : id ∈ σ.mem.ids) :
    (remove_task w1 (some id) σ).2 = Outcome.success id ∧
    (remove_task w1 (some id) σ).1.mem.tasks =
      σ.mem.tasks.eraseP (fun t => decide (t.id = id)) ∧
    (remove_task w1 (some id) σ).1.mem.tasks.Sublist σ.mem.tasks ∧
    remove_task w2 (some id) (remove_task w1 (some id) σ).1 =
      ((remove_task w1 (some id) σ).1,
        if (remove_task w1 (some id) σ).1.mem.task_count = 0 then Outcome.noTasks
        else Outcome.notFound) := by
  obtain ⟨h1, _, h3, _, _, _⟩ := remove_task_of_mem w1 id σ hb hid
  have hb1 : (remove_task w1 (some id) σ).1.mem.Bounded :=
    step_bounded (Op.remove w1 (some id)) σ hb
  have hnot : id ∉ (remove_task w1 (some id) σ).1.mem.ids := by
    unfold Store.ids
    rw [h3]
    exact not_mem_map_eraseP id _ hnd
  refine ⟨h1, h3, ?_, remove_task_of_not_mem w2 id _ hb1 hnot⟩
  rw [h3]
  exact List.eraseP_sublist _

theorem remove_task_twice_witness :
    (remove_task true (some 1) ⟨twoTasks, none⟩).2 = Outcome.success 1 ∧
    (remove_task true (some 1) ⟨twoTasks, none⟩).1.mem.tasks =
      twoTasks.tasks.eraseP (fun t => decide (t.id = 1)) ∧
    (remove_task true (some 1) ⟨twoTasks, none⟩).1.mem.tasks.Sublist twoTasks.tasks ∧
    remove_task true (some 1) (remove_task true (some 1) ⟨twoTasks, none⟩).1 =
      ((remove_task true (some 1) ⟨twoTasks, none⟩).1,
        if (remove_task true (some 1) ⟨twoTasks, none⟩).1.mem.task_count = 0
        then Outcome.noTasks else Outcome.notFound) :=
  remove_task_twice true true 1 ⟨twoTasks, none⟩ (by decide) (by decide) (by decide)

/-! ## The format `save_tasks` writes -/

theorem save_loop_eq_flatten (tl : List Task) : ∀ (n i : Nat), i + n ≤ tl.length →
    save_loop tl n i = (((tl.drop i).take n).map fmt_record).flatten := by
  intro n
  induction n with
  | zero => intro i _; simp [save_loop]
  | succ n ih =>
    intro i h
    have hi : i < tl.length := by omega
    rw [show save_loop tl (n + 1) i = fmt_record (slot tl i) ++ save_loop tl n (i + 1) from rfl,
      ih (i + 1) (by omega), List.drop_eq_getElem_cons hi, List.take_succ_cons, List.map_cons,
      List.flatten_cons, slot_eq_getElem _ _ hi]

theorem count_newline_fmt_record (t : Task) (h : '\n' ∉ t.description) :
    (fmt_record t).count '\n' = 1 := by
  have h1 : '\n' ∉ fmt_d t.id := fun hm => (fmt_d_chars _ _ hm).1 rfl
  have h2 : '\n' ∉ fmt_d t.completed := fun hm => (fmt_d_chars _ _ hm).1 rfl
  unfold fmt_record
  simp only [List.count_append, List.count_cons, List.count_nil,
    List.count_eq_zero_of_not_mem h1, List.count_eq_zero_of_not_mem h2,
    List.count_eq_zero_of_not_mem h]
  decide

theorem count_newline_records : ∀ (l : List Task), (∀ t ∈ l, '\n' ∉ t.description) →
    ((l.map fmt_record).flatten).count '\n' = l.length := by
  intro l
  induction l with
  | nil => intro _; rfl
  | cons t ts ih =>
    intro h
    rw [List.map_cons, List.flatten_cons, List.count_append,
      count_newline_fmt_record t (h t (by simp)), ih (fun u hu => h u (by simp [hu])),
      List.length_cons]
    omega

theorem encode_eq (s : Store) (hb : s.Bounded) :
    encode s = fmt_d s.task_count ++ '\n' ::
      (fmt_d s.next_id ++ '\n' :: (s.tasks.map fmt_record).flatten) := by
  unfold encode Store.tasks
  rw [save_loop_eq_flatten _ _ _ (by have := hb.toNat_le; omega), List.drop_zero]

/-- C13: for a store whose count indexes the array and whose descriptions
hold no newline, when the file can be opened `save_tasks` replaces its
content, whatever it was, by the decimal count and a newline, the decimal
`next_id` and a newline, and one line `id|completed|description` with its
newline for each task of the sequence, in order; the numbers are written as
decimal numerals; the text has `task_count + 2` newlines, one at the end of
each line. -/
theorem save_tasks_format (s : Store) (disk : Option (List Char)) (hb : s.Bounded)
    (hnl : ∀ t ∈ s.tasks, '\n' ∉ t.description) :
    save_tasks true s disk = some (fmt_d s.task_count ++ '\n' ::
      (fmt_d s.next_id ++ '\n' :: (s.tasks.map fmt_record).flatten)) ∧
    save_tasks true s disk = save_tasks true s none ∧
    (∀ t, fmt_record t = fmt_d t.id ++ ['|'] ++ fmt_d t.completed ++ ['|'] ++
      t.description ++ ['\n']) ∧
    (∀ x : Int, String.mk (fmt_d x) = toString x) ∧
    (((encode s).count '\n' : Nat) : Int) = s.task_count + 2 := by
  have h1 : '\n' ∉ fmt_d s.task_count := fun hm => (fmt_d_chars _ _ hm).1 rfl
  have h2 : '\n' ∉ fmt_d s.next_id := fun hm => (fmt_d_chars _ _ hm).1 rfl
  have hlen : s.tasks.length = s.task_count.toNat := by
    unfold Store.tasks
    rw [List.length_take]
    have := hb.toNat_le
    omega
  refine ⟨?_, rfl, ?_, fmt_d_eq_toString, ?_⟩
  · unfold save_tasks
    rw [if_pos rfl, encode_eq s hb]
  · intro t; simp [fmt_record]
  · rw [encode_eq s hb]
    simp only [List.count_append, List.count_cons, List.count_eq_zero_of_not_mem h1,
      List.count_eq_zero_of_not_mem h2, count_newline_records _ hnl, hlen]
    obtain ⟨_, b2, _⟩ := hb
    simp
    omega

theorem save_tasks_format_witness :
    save_tasks true twoTasks (some "old".toList) = some (fmt_d twoTasks.task_count ++ '\n' ::
      (fmt_d twoTasks.next_id ++ '\n' :: (twoTasks.tasks.map fmt_record).flatten)) ∧
    save_tasks true twoTasks (some "old".toList) = save_tasks true twoTasks none ∧
    (∀ t, fmt_record t = fmt_d t.id ++ ['|'] ++ fmt_d t.completed ++ ['|'] ++
      t.description ++ ['\n']) ∧
    (∀ x : Int, String.mk (fmt_d x) = toString x) ∧
    (((encode twoTasks).count '\n' : Nat) : Int) = twoTasks.task_count + 2 :=
  save_tasks_format twoTasks (some "old".toList) (by decide) (by decide)

/-! ## Write-through -/

/-- C14: after every add, mark-complete or remove that succeeds while the
file can be opened for writing, the content of the file is the encoding of
the globals the command left. -/
theorem step_writes_through (op : Op) (σ : Sys) (id : Int) (hw : op.writable = true)
    (hs : (step op σ).2 = Outcome.success id) :
    (step op σ).1.disk = some (encode (step op σ).1.mem) := by
  cases op with
  | add w inp =>
    simp only [Op.writable] at hw
    subst hw
    simp only [step, add_task] at hs ⊢
    split at hs
    · cases hs
    · split at hs
      · cases hs
      · rename_i hc _ _ _ h2
        simp only [if_neg hc, h2, save_tasks, if_true]
  | markComplete w inp =>
    simp only [Op.writable] at hw
    subst hw
    simp only [step, update_task_status] at hs ⊢
    split at hs
    · cases hs
    · split at hs
      · cases hs
      · split at hs
        · rename_i hc _ _ _ _ h2
          simp only [if_neg hc, h2, save_tasks, if_true]
        · cases hs
  | remove w inp =>
    simp only [Op.writable] at hw
    subst hw
    simp only [step, remove_task] at hs ⊢
    split at hs
    · cases hs
    · split at hs
      · cases hs
      · split at hs
        · rename_i hc _ _ _ _ h2
          simp only [if_neg hc, h2, save_tasks, if_true]
        · cases hs

theorem step_writes_through_witness :
    (step (Op.add true "Feed cat\n".toList) ⟨twoTasks, none⟩).1.disk =
      some (encode (step (Op.add true "Feed cat\n".toList) ⟨twoTasks, none⟩).1.mem) ∧
    (step (Op.add true "Feed cat\n".toList) ⟨twoTasks, none⟩).1.disk =
      some "3\n4\n1|0|Buy milk\n2|0|Walk dog\n3|0|Feed cat\n".toList :=
  ⟨step_writes_through (Op.add true "Feed cat\n".toList) ⟨twoTasks, none⟩ 3 (by decide)
      (by decide), by decide⟩

/-! ## The scenario of the specification and the missing file -/

/-- C16: from the empty store with `next_id = 1`, adding "Buy milk" creates
task 1, not completed; adding "Walk dog" creates task 2; marking 1 completes
task 1; removing 1 leaves only task 2, not completed; and loading what was
saved gives exactly that one task with `next_id = 3`. -/
theorem scenario_buy_milk_walk_dog :
    (run [Op.add true "Buy milk\n".toList] ⟨Store.init, none⟩).mem.tasks =
      [⟨1, "Buy milk".toList, 0⟩] ∧
    (step (Op.add true "Walk dog\n".toList)
      (run [Op.add true "Buy milk\n".toList] ⟨Store.init, none⟩)).2 = Outcome.success 2 ∧
    (run [Op.add true "Buy milk\n".toList, Op.add true "Walk dog\n".toList,
        Op.markComplete true (some 1)] ⟨Store.init, none⟩).mem.tasks =
      [⟨1, "Buy milk".toList, 1⟩, ⟨2, "Walk dog".toList, 0⟩] ∧
    (run [Op.add true "Buy milk\n".toList, Op.add true "Walk dog\n".toList,
        Op.markComplete true (some 1), Op.remove true (some 1)] ⟨Store.init, none⟩).mem.tasks =
      [⟨2, "Walk dog".toList, 0⟩] ∧
    (load_tasks (run [Op.add true "Buy milk\n".toList, Op.add true "Walk dog\n".toList,
        Op.markComplete true (some 1), Op.remove true (some 1)] ⟨Store.init, none⟩).disk
      Store.init).tasks = [⟨2, "Walk dog".toList, 0⟩] ∧
    (load_tasks (run [Op.add true "Buy milk\n".toList, Op.add true "Walk dog\n".toList,
        Op.markComplete true (some 1), Op.remove true (some 1)] ⟨Store.init, none⟩).disk
      Store.init).task_count = 1 ∧
    (load_tasks (run [Op.add true "Buy milk\n".toList, Op.add true "Walk dog\n".toList,
        Op.markComplete true (some 1), Op.remove true (some 1)] ⟨Store.init, none⟩).disk
      Store.init).next_id = 3 := by
  decide

/-- C18: when `tasks.txt` cannot be opened, `load_tasks` sets the count to 0
and `next_id` to 1 whatever the globals held, so the store is empty; the array
is not touched and the function returns. -/
theorem load_tasks_missing_file (mem : Store) :
    load_tasks none mem = { mem with task_count := 0, next_id := 1 } ∧
    (load_tasks none mem).tasks = [] ∧
    (load_tasks none mem).task_count = 0 ∧
    (load_tasks none mem).next_id = 1 := by
  refine ⟨rfl, ?_, rfl, rfl⟩
  simp [load_tasks, Store.tasks]

/-! ## Well-formedness of the stored descriptions -/

theorem goodDesc_default : (default : Task).GoodDesc := by decide

theorem slot_good (tl : List Task) (i : Nat) (h : ∀ t ∈ tl, t.GoodDesc) :
    (slot tl i).GoodDesc := by
  unfold slot
  rw [List.getD_eq_getElem?_getD]
  cases hi : tl[i]? with
  | none => exact goodDesc_default
  | some t => exact h t (List.mem_iff_getElem?.mpr ⟨i, hi⟩)

theorem set_good (tl : List Task) (i : Nat) (x : Task) (h : ∀ t ∈ tl, t.GoodDesc)
    (hx : x.GoodDesc) : ∀ t ∈ tl.set i x, t.GoodDesc := by
  intro t ht
  rcases List.mem_or_eq_of_mem_set ht with h1 | h1
  · exact h t h1
  · rw [h1]; exact hx

theorem scanSet_good : ∀ (k : Nat) (l : List Char),
    '\n' ∉ scanSet k l ∧ (scanSet k l).length ≤ k := by
  intro k
  induction k with
  | zero => intro l; simp [scanSet]
  | succ k ih =>
    intro l
    cases l with
    | nil => simp [scanSet]
    | cons c cs =>
      unfold scanSet
      by_cases hc : c = '\n'
      · rw [if_pos hc]; simp
      · rw [if_neg hc]
        obtain ⟨h1, h2⟩ := ih cs
        refine ⟨?_, by simpa using h2⟩
        intro hm
        rcases List.mem_cons.mp hm with h | h
        · exact hc h.symm
        · exact h1 h

theorem sscanf_record_good (buffer : List Char) (t : Task) (h : t.GoodDesc) :
    (sscanf_record buffer t).2.GoodDesc := by
  unfold sscanf_record
  split
  · exact h
  · split
    · exact h
    · split
      · exact h
      · split
        · exact h
        · split
          · exact h
          · split
            · exact h
            · split
              · exact h
              · rename_i heq
                have h99 : ∀ (l r : List Char), scanSet 99 l = r →
                    '\n' ∉ r ∧ r.length ≤ 99 := fun l r e => e ▸ scanSet_good 99 l
                exact h99 _ _ heq

theorem load_loop_good : ∀ (n i : Nat) (file : List Char) (tl : List Task) (tc : Int),
    (∀ t ∈ tl, t.GoodDesc) → ∀ t ∈ (load_loop n i file tl tc).1, t.GoodDesc := by
  intro n
  induction n with
  | zero => intro i file tl tc h; exact h
  | succ n ih =>
    intro i file tl tc h
    unfold load_loop
    generalize fgets (MAX_DESC_LEN + 10) file = r
    obtain ⟨o, rest⟩ := r
    cases o with
    | none => exact h
    | some buffer =>
      have hset := set_good tl i (sscanf_record (cstr buffer) (slot tl i)).2 h
        (sscanf_record_good _ _ (slot_good tl i h))
      simp only
      split
      · exact hset
      · exact ih _ _ _ _ hset

theorem load_tasks_good (disk : Option (List Char)) (mem : Store)
    (h : ∀ t ∈ mem.task_list, t.GoodDesc) :
    ∀ t ∈ (load_tasks disk mem).task_list, t.GoodDesc := by
  unfold load_tasks
  cases disk with
  | none => exact h
  | some file => exact load_loop_good _ _ _ _ _ h

theorem readLine_length : ∀ (k : Nat) (s : List Char), (readLine k s).1.length ≤ k := by
  intro k
  induction k with
  | zero => intro s; simp [readLine]
  | succ k ih =>
    intro s
    cases s with
    | nil => simp [readLine]
    | cons c cs =>
      unfold readLine
      by_cases hc : c = '\n'
      · rw [if_pos hc]; simp
      · rw [if_neg hc]
        have := ih cs
        simp only [List.cons_eq_cons, List.length_cons]
        omega

theorem add_task_good (w : Bool) (stdin : List Char) (σ : Sys)
    (h : ∀ t ∈ σ.mem.task_list, t.GoodDesc) :
    ∀ t ∈ (add_task w stdin σ).1.mem.task_list, t.GoodDesc := by
  unfold add_task
  split
  · exact h
  · cases stdin with
    | nil => exact h
    | cons c cs =>
      simp only [fgets]
      apply set_good _ _ _ h
      constructor
      · intro hm
        have := List.mem_takeWhile_imp hm
        simp at this
      · have h1 := (List.takeWhile_sublist (fun c => decide (c ≠ '\n'))
          (l := cstr (readLine (MAX_DESC_LEN - 1) (c :: cs)).1)).length_le
        have h2 := (List.takeWhile_sublist (fun c => decide (c ≠ '\x00'))
          (l := (readLine (MAX_DESC_LEN - 1) (c :: cs)).1)).length_le
        have h3 := readLine_length (MAX_DESC_LEN - 1) (c :: cs)
        unfold cstr at h1
        unfold MAX_DESC_LEN at h1 h2 h3
        simp only [cstr, MAX_DESC_LEN]
        omega

theorem shift_loop_good : ∀ (n i : Nat) (tl : List Task), (∀ t ∈ tl, t.GoodDesc) →
    ∀ t ∈ shift_loop n i tl, t.GoodDesc := by
  intro n
  induction n with
  | zero => intro i tl h; exact h
  | succ n ih =>
    intro i tl h
    unfold shift_loop
    exact ih _ _ (set_good tl i _ h (slot_good tl (i + 1) h))

theorem step_good (op : Op) (σ : Sys) (h : ∀ t ∈ σ.mem.task_list, t.GoodDesc) :
    ∀ t ∈ (step op σ).1.mem.task_list, t.GoodDesc := by
  cases op with
  | add w inp => exact add_task_good w inp σ h
  | markComplete w inp =>
    simp only [step, update_task_status]
    split
    · exact h
    · split
      · exact h
      · rw [update_loop_eq]
        cases find_index _ σ.mem.task_list σ.mem.task_count.toNat 0 with
        | none => exact h
        | some k =>
          simp only [Option.map_some']
          apply set_good _ _ _ h
          exact slot_good _ k h
  | remove w inp =>
    simp only [step, remove_task]
    split
    · exact h
    · split
      · exact h
      · split
        · exact shift_loop_good _ _ _ h
        · exact h

theorem run_good : ∀ (ops : List Op) (σ : Sys), (∀ t ∈ σ.mem.task_list, t.GoodDesc) →
    ∀ t ∈ (run ops σ).mem.task_list, t.GoodDesc := by
  intro ops
  induction ops with
  | nil => intro σ h; exact h
  | cons op ops ih => intro σ h; exact ih _ (step_good op σ h)

theorem load_loop_length : ∀ (n i : Nat) (file : List Char) (tl : List Task) (tc : Int),
    (load_loop n i file tl tc).1.length = tl.length := by
  intro n
  induction n with
  | zero => intro i file tl tc; rfl
  | succ n ih =>
    intro i file tl tc
    unfold load_loop
    generalize fgets (MAX_DESC_LEN + 10) file = r
    obtain ⟨o, rest⟩ := r
    cases o with
    | none => rfl
    | some buffer =>
      simp only
      split
      · simp
      · rw [ih]; simp

theorem load_loop_count : ∀ (n i : Nat) (file : List Char) (tl : List Task) (tc : Int),
    (load_loop n i file tl tc).2 = tc ∨
      ((i : Int) ≤ (load_loop n i file tl tc).2 ∧
        (load_loop n i file tl tc).2 < ((i + n : Nat) : Int)) := by
  intro n
  induction n with
  | zero => intro i file tl tc; exact Or.inl rfl
  | succ n ih =>
    intro i file tl tc
    unfold load_loop
    generalize fgets (MAX_DESC_LEN + 10) file = r
    obtain ⟨o, rest⟩ := r
    cases o with
    | none => exact Or.inr ⟨le_refl _, by push_cast; omega⟩
    | some buffer =>
      simp only
      split
      · exact Or.inr ⟨le_refl _, by push_cast; omega⟩
      · rcases ih (i + 1) rest (tl.set i (sscanf_record (cstr buffer) (slot tl i)).2) tc with h | h
        · exact Or.inl h
        · refine Or.inr ⟨?_, ?_⟩
          · have := h.1; push_cast at this; omega
          · have := h.2; push_cast at this ⊢; omega

/-- A file whose declared count is between 0 and `MAX_TASKS` is loaded
without leaving the array, and the loaded count indexes the array. -/
theorem load_tasks_bounded (disk : Option (List Char)) (mem : Store)
    (hm : mem.task_list.length = MAX_TASKS) (h0 : 0 ≤ declared_count disk)
    (h1 : declared_count disk ≤ (MAX_TASKS : Int)) : (load_tasks disk mem).Bounded := by
  cases disk with
  | none =>
    refine ⟨hm, ?_, ?_⟩
    · show (0 : Int) ≤ 0
      decide
    · show (0 : Int) ≤ (MAX_TASKS : Int)
      decide
  | some file =>
    unfold declared_count at h0 h1
    simp only at h0 h1
    unfold load_tasks Store.Bounded
    simp only
    refine ⟨by rw [load_loop_length]; exact hm, ?_, ?_⟩
    · rcases load_loop_count ((fscanf_d_nl file).1.getD 0).toNat 0
        (fscanf_d_nl (fscanf_d_nl file).2).2 mem.task_list ((fscanf_d_nl file).1.getD 0)
        with h | h
      · rw [h]; exact h0
      · have := h.1; simpa using this
    · rcases load_loop_count ((fscanf_d_nl file).1.getD 0).toNat 0
        (fscanf_d_nl (fscanf_d_nl file).2).2 mem.task_list ((fscanf_d_nl file).1.getD 0)
        with h | h
      · rw [h]; exact h1
      · have := h.2
        push_cast at this
        omega

theorem run_bounded : ∀ (ops : List Op) (σ : Sys), σ.mem.Bounded → (run ops σ).mem.Bounded := by
  intro ops
  induction ops with
  | nil => intro σ h; exact h
  | cons op ops ih => intro σ h; exact ih _ (step_bounded op σ h)

/-- Where the program stays within its array: in the store `load_tasks`
produces at start-up from a file whose declared count is between 0 and
`MAX_TASKS`, and after any sequence of commands with any input, the count
indexes the array and every task of the sequence has a description without
newline and of at most 99 bytes, so its record is written on exactly one
line. -/
theorem descriptions_stay_well_formed (source : Option (List Char)) (ops : List Op)
    (t : Task) (h0 : 0 ≤ declared_count source)
    (h1 : declared_count source ≤ (MAX_TASKS : Int))
    (ht : t ∈ (run ops ⟨load_tasks source Store.init, source⟩).mem.tasks) :
    (run ops ⟨load_tasks source Store.init, source⟩).mem.Bounded ∧
    '\n' ∉ t.description ∧ t.description.length ≤ 99 ∧ (fmt_record t).count '\n' = 1 := by
  have hinit : ∀ u ∈ Store.init.task_list, u.GoodDesc := by
    intro u hu
    have : u = default := List.eq_of_mem_replicate hu
    rw [this]; exact goodDesc_default
  have hload := load_tasks_good source Store.init hinit
  have hrun := run_good ops ⟨load_tasks source Store.init, source⟩ hload
  have hmem : t ∈ (run ops ⟨load_tasks source Store.init, source⟩).mem.task_list :=
    List.mem_of_mem_take ht
  obtain ⟨g1, g2⟩ := hrun t hmem
  have hb := run_bounded ops ⟨load_tasks source Store.init, source⟩
    (load_tasks_bounded source Store.init (by decide) h0 h1)
  exact ⟨hb, g1, g2, count_newline_fmt_record t g1⟩

theorem descriptions_stay_well_formed_witness :
    (run [Op.remove true (some 1), Op.add true "Feed cat\nmore".toList]
      ⟨load_tasks (some "2\n3\n1|0|Buy milk\n2|1|Walk dog\n".toList) Store.init,
        some "2\n3\n1|0|Buy milk\n2|1|Walk dog\n".toList⟩).mem.Bounded ∧
    '\n' ∉ "Feed cat".toList ∧ "Feed cat".toList.length ≤ 99 ∧
      (fmt_record ⟨3, "Feed cat".toList, 0⟩).count '\n' = 1 :=
  descriptions_stay_well_formed (some "2\n3\n1|0|Buy milk\n2|1|Walk dog\n".toList)
    [Op.remove true (some 1), Op.add true "Feed cat\nmore".toList]
    ⟨3, "Feed cat".toList, 0⟩ (by decide) (by decide) (by decide)

/-! ## Loading a file whose records end early -/

/-- The number of fields `sscanf` assigns does not depend on the struct the
fields are stored in. -/
theorem sscanf_record_fst (buffer : List Char) (t : Task) :
    (sscanf_record buffer t).1 = (sscanf_record buffer default).1 := by
  unfold sscanf_record
  generalize scanInt buffer = a
  obtain ⟨o, r1⟩ := a
  cases o with
  | none => rfl
  | some id =>
    cases r1 with
    | nil => rfl
    | cons c1 r2 =>
      simp only
      by_cases h1 : c1 ≠ '|'
      · rw [if_pos h1, if_pos h1]
      · rw [if_neg h1, if_neg h1]
        generalize scanInt r2 = b
        obtain ⟨o2, r3⟩ := b
        cases o2 with
        | none => rfl
        | some completed =>
          cases r3 with
          | nil => rfl
          | cons c2 r4 =>
            simp only
            by_cases h2 : c2 ≠ '|'
            · rw [if_pos h2, if_pos h2]
            · rw [if_neg h2, if_neg h2]
              cases scanSet 99 r4 <;> rfl

theorem take_set_self (tl : List Task) (i : Nat) (x : Task) :
    (tl.set i x).take i = tl.take i := by
  apply List.ext_getElem?
  intro j
  rw [List.getElem?_take, List.getElem?_take, List.getElem?_set]
  by_cases hj : j < i
  · have : ¬ i = j := by omega
    simp [hj, this]
  · simp [hj]

/-- The loop of `load_tasks` on a stream that starts with the record lines of
the tasks `recs`: the tasks are stored in order; when fewer records than
iterations are present and the stream goes on with a missing or malformed
record, the count is set to their number. -/
theorem load_loop_records : ∀ (recs : List Task) (n i : Nat) (tl : List Task)
    (rest : List Char) (tc : Int), recs.length ≤ n → i + recs.length ≤ tl.length →
    (∀ t ∈ recs, t.WellFormed ∧ t.description ≠ [] ∧ (fmt_record t).length ≤ 109) →
    (recs.length < n → BadRecord rest) →
    (load_loop n i ((recs.map fmt_record).flatten ++ rest) tl tc).2 =
      (if recs.length < n then ((i + recs.length : Nat) : Int) else tc) ∧
    (load_loop n i ((recs.map fmt_record).flatten ++ rest) tl tc).1.take (i + recs.length) =
      tl.take i ++ recs := by
  intro recs
  induction recs with
  | nil =>
    intro n i tl rest tc _ _ _ hbad
    cases n with
    | zero => exact ⟨rfl, by simp [load_loop]⟩
    | succ n =>
      have hbad := hbad (by simp)
      simp only [List.map_nil, List.flatten_nil, List.nil_append, List.length_nil,
        Nat.add_zero, List.append_nil, Nat.zero_lt_succ, if_true]
      unfold BadRecord at hbad
      unfold load_loop
      generalize fgets (MAX_DESC_LEN + 10) rest = r at hbad ⊢
      obtain ⟨o, more⟩ := r
      cases o with
      | none => exact ⟨rfl, rfl⟩
      | some buffer =>
        simp only at hbad ⊢
        rw [← sscanf_record_fst _ (slot tl i)] at hbad
        rw [if_pos hbad]
        exact ⟨rfl, take_set_self _ _ _⟩
  | cons t ts ih =>
    intro n i tl rest tc hn hlen hgood hbad
    cases n with
    | zero => simp at hn
    | succ n =>
      obtain ⟨g1, g2, g3⟩ := hgood t (by simp)
      have hstep : load_loop (n + 1) i (((t :: ts).map fmt_record).flatten ++ rest) tl tc =
          load_loop n (i + 1) ((ts.map fmt_record).flatten ++ rest) (tl.set i t) tc := by
        rw [List.map_cons, List.flatten_cons, List.append_assoc, load_loop,
          fgets_fmt_record _ _ g1 g3]
        simp only [sscanf_fmt_record _ _ g1 g2, ne_eq, not_true_eq_false, if_false]
      rw [hstep]
      simp only [List.length_cons] at hn hlen hbad ⊢
      obtain ⟨h1, h2⟩ := ih n (i + 1) (tl.set i t) rest tc (by omega)
        (by simp only [List.length_set]; omega) (fun u hu => hgood u (by simp [hu]))
        (fun h => hbad (by omega))
      rw [show i + (ts.length + 1) = i + 1 + ts.length by omega]
      refine ⟨?_, ?_⟩
      · rw [h1]
        by_cases hlt : ts.length < n
        · rw [if_pos hlt, if_pos (by omega)]
        · rw [if_neg hlt, if_neg (by omega)]
      · rw [h2, take_succ_set _ _ _ (by omega)]
        simp

theorem skipSpace_records (recs : List Task) (rest : List Char) (h : recs ≠ []) :
    skipSpace ((recs.map fmt_record).flatten ++ rest) =
      (recs.map fmt_record).flatten ++ rest := by
  cases recs with
  | nil => exact absurd rfl h
  | cons t ts =>
    rw [List.map_cons, List.flatten_cons]
    unfold fmt_record
    rw [List.append_assoc, List.append_assoc]
    exact skipSpace_fmt_d _ _

/-- Loading a file made of a header as `save_tasks` writes it, the record
lines of the tasks `recs`, and a remainder: when the header declares more
tasks than `recs` holds and the remainder starts with a missing or malformed
record, exactly `recs` is loaded. In front of the first record the white
space of the remainder is skipped with the header. -/
theorem load_tasks_records (n nid : Int) (recs : List Task) (rest : List Char) (mem : Store)
    (hn : n ≤ (MAX_TASKS : Int)) (hk : (recs.length : Int) ≤ n) (hnid : InInt nid)
    (hm : mem.task_list.length = MAX_TASKS)
    (hgood : ∀ t ∈ recs, t.WellFormed ∧ t.description ≠ [] ∧ (fmt_record t).length ≤ 109)
    (hbad : (recs.length : Int) < n → BadRecord (if recs = [] then skipSpace rest else rest)) :
    (load_tasks (some (fmt_d n ++ '\n' :: (fmt_d nid ++ '\n' ::
      ((recs.map fmt_record).flatten ++ rest)))) mem).tasks = recs ∧
    (load_tasks (some (fmt_d n ++ '\n' :: (fmt_d nid ++ '\n' ::
      ((recs.map fmt_record).flatten ++ rest)))) mem).task_count = (recs.length : Int) ∧
    (load_tasks (some (fmt_d n ++ '\n' :: (fmt_d nid ++ '\n' ::
      ((recs.map fmt_record).flatten ++ rest)))) mem).next_id = nid := by
  have hnin : InInt n := by
    unfold InInt INT_MIN INT_MAX
    unfold MAX_TASKS at hn
    omega
  have h1 : fscanf_d_nl (fmt_d n ++ '\n' :: (fmt_d nid ++ '\n' ::
      ((recs.map fmt_record).flatten ++ rest))) =
      (some n, fmt_d nid ++ '\n' :: ((recs.map fmt_record).flatten ++ rest)) := by
    rw [fscanf_d_nl_line _ _ hnin, skipSpace_fmt_d]
  have h2 : fscanf_d_nl (fmt_d nid ++ '\n' :: ((recs.map fmt_record).flatten ++ rest)) =
      (some nid, skipSpace ((recs.map fmt_record).flatten ++ rest)) :=
    fscanf_d_nl_line _ _ hnid
  have hstream : skipSpace ((recs.map fmt_record).flatten ++ rest) =
      (recs.map fmt_record).flatten ++ (if recs = [] then skipSpace rest else rest) := by
    by_cases hr : recs = []
    · subst hr; simp
    · rw [if_neg hr, skipSpace_records _ _ hr]
  have hloop := load_loop_records recs n.toNat 0 mem.task_list
    (if recs = [] then skipSpace rest else rest) n (by omega)
    (by rw [hm]; unfold MAX_TASKS at hn ⊢; omega) hgood (fun h => hbad (by omega))
  unfold load_tasks
  simp only [h1, h2, Option.getD_some, Store.tasks, hstream]
  obtain ⟨l1, l2⟩ := hloop
  have hcount : (load_loop n.toNat 0 ((recs.map fmt_record).flatten ++
      (if recs = [] then skipSpace rest else rest)) mem.task_list n).2 = (recs.length : Int) := by
    rw [l1]
    by_cases hlt : recs.length < n.toNat
    · rw [if_pos hlt]; simp
    · rw [if_neg hlt]; omega
  rw [hcount]
  refine ⟨?_, by trivial, by trivial⟩
  rw [Nat.zero_add] at l2
  simpa using l2

/-- C12, as the claim states it, fails. A blank first record line is skipped
with the white space after the header, so the records after it are loaded; and
a well-formed record line of 111 bytes is read in two pieces, so the load stops
after one task with a cut description although two well-formed records are
present. -/
theorem load_tasks_skips_blank_record :
    BadRecord "\n1|0|a\n2|0|b\n".toList ∧
    (load_tasks (some blankFirstRecordFile) Store.init).task_count = 2 ∧
    (load_tasks (some blankFirstRecordFile) Store.init).tasks =
      [⟨1, "a".toList, 0⟩, ⟨2, "b".toList, 0⟩] ∧
    (load_tasks (some longRecordFile) Store.init).task_count = 1 ∧
    (load_tasks (some longRecordFile) Store.init).tasks =
      [⟨10000000, List.replicate 98 'a', 0⟩] := by
  decide

/-- C12, amended: for a file with a header as `save_tasks` writes it that
declares `n` tasks (at most 100), followed by the record lines of `k < n`
tasks (`int` id and flag, non-empty description without newline of at most 99
bytes, line of at most 109 bytes with its newline) and then by a missing or
malformed record, `load_tasks` yields exactly these `k` tasks in file order
with count `k` and the declared `next_id`. When the bad record is the first
one, it is what follows the white space, blank lines included, that was
skipped with the header. -/
theorem load_tasks_well_formed_prefix (n nid : Int) (recs : List Task) (rest : List Char)
    (mem : Store) (hn : n ≤ (MAX_TASKS : Int)) (hk : (recs.length : Int) < n)
    (hnid : InInt nid) (hm : mem.task_list.length = MAX_TASKS)
    (hgood : ∀ t ∈ recs, t.WellFormed ∧ t.description ≠ [] ∧ (fmt_record t).length ≤ 109)
    (hbad : BadRecord (if recs = [] then skipSpace rest else rest)) :
    (load_tasks (some (fmt_d n ++ '\n' :: (fmt_d nid ++ '\n' ::
      ((recs.map fmt_record).flatten ++ rest)))) mem).tasks = recs ∧
    (load_tasks (some (fmt_d n ++ '\n' :: (fmt_d nid ++ '\n' ::
      ((recs.map fmt_record).flatten ++ rest)))) mem).task_count = (recs.length : Int) ∧
    (load_tasks (some (fmt_d n ++ '\n' :: (fmt_d nid ++ '\n' ::
      ((recs.map fmt_record).flatten ++ rest)))) mem).next_id = nid :=
  load_tasks_records n nid recs rest mem hn (by omega) hnid hm hgood (fun _ => hbad)

theorem load_tasks_well_formed_prefix_witness :
    (load_tasks (some (fmt_d 3 ++ '\n' :: (fmt_d 9 ++ '\n' ::
      (([⟨1, "a".toList, 0⟩].map fmt_record).flatten ++ "x|y\n2|0|b\n".toList)))) Store.init).tasks =
        [⟨1, "a".toList, 0⟩] ∧
    (load_tasks (some (fmt_d 3 ++ '\n' :: (fmt_d 9 ++ '\n' ::
      (([⟨1, "a".toList, 0⟩].map fmt_record).flatten ++ "x|y\n2|0|b\n".toList)))) Store.init).task_count =
        (([⟨1, "a".toList, 0⟩] : List Task).length : Int) ∧
    (load_tasks (some (fmt_d 3 ++ '\n' :: (fmt_d 9 ++ '\n' ::
      (([⟨1, "a".toList, 0⟩].map fmt_record).flatten ++ "x|y\n2|0|b\n".toList)))) Store.init).next_id =
        9 :=
  load_tasks_well_formed_prefix 3 9 [⟨1, "a".toList, 0⟩] "x|y\n2|0|b\n".toList Store.init
    (by decide) (by decide) (by decide) (by decide) (by decide) (by decide)

/-- C17: a record line whose description of 99 bytes holds a separator is not
loaded whole when its id has eight digits: the line has 111 bytes, `fgets`
reads 109 of them and the description loses its last byte. -/
theorem load_tasks_cuts_long_record :
    barTask.description ≠ [] ∧ '\n' ∉ barTask.description ∧
    barTask.description.length ≤ 99 ∧ '|' ∈ barTask.description ∧
    (load_tasks (some ("1\n2\n".toList ++ fmt_record barTask)) Store.init).tasks =
      [⟨10000000, 'x' :: '|' :: List.replicate 96 'y', 0⟩] ∧
    (load_tasks (some ("1\n2\n".toList ++ fmt_record barTask)) Store.init).tasks ≠
      [barTask] := by
  decide

/-! ## Records with an empty description -/

theorem fmt_nat_fuel_length : ∀ (f n d : Nat), 1 ≤ d → n < 10 ^ d →
    (fmt_nat_fuel f n).length ≤ d := by
  intro f
  induction f with
  | zero => intro n d _ _; simp [fmt_nat_fuel]
  | succ f ih =>
    intro n d hd hn
    unfold fmt_nat_fuel
    by_cases h10 : n < 10
    · rw [if_pos h10]; simpa using hd
    · rw [if_neg h10]
      have hd2 : 2 ≤ d := by
        rcases Nat.lt_or_ge d 2 with h | h
        · have : d = 1 := by omega
          subst this
          simp at hn
          omega
        · exact h
      have hdiv : n / 10 < 10 ^ (d - 1) := by
        apply Nat.div_lt_of_lt_mul
        have : 10 ^ d = 10 * 10 ^ (d - 1) := by
          rw [← Nat.pow_succ']
          congr 1
          omega
        omega
      have := ih (n / 10) (d - 1) (by omega) hdiv
      simp only [List.length_append, List.length_singleton]
      omega

theorem fmt_d_length (x : Int) (hx : InInt x) : (fmt_d x).length ≤ 11 := by
  unfold InInt INT_MIN INT_MAX at hx
  unfold fmt_d fmt_nat
  by_cases hneg : x < 0
  · rw [if_pos hneg]
    have := fmt_nat_fuel_length ((-x).toNat + 1) (-x).toNat 10 (by decide) (by omega)
    simp only [List.length_cons]
    omega
  · rw [if_neg hneg]
    have := fmt_nat_fuel_length (x.toNat + 1) x.toNat 10 (by decide) (by omega)
    omega

/-- Parsing the record line of a task with an empty description assigns two
fields only. -/
theorem sscanf_fmt_record_empty (t t0 : Task) (hwf : t.WellFormed) (he : t.description = []) :
    (sscanf_record (cstr (fmt_record t)) t0).1 = 2 := by
  have hbody := fmt_record_body_chars t hwf
  obtain ⟨h1, h2, _, _, _⟩ := hwf
  have hc : cstr (fmt_record t) = fmt_record t := by
    apply cstr_eq_self
    rw [fmt_record_eq]
    intro h
    rcases List.mem_append.mp h with h | h
    · exact hbody.2 h
    · revert h; decide
  rw [hc]
  have hbar : isdigit '|' = false := by decide
  unfold sscanf_record fmt_record
  rw [scanInt_fmt_d _ _ _ h1 hbar]
  simp only [ne_eq, not_true_eq_false, if_false]
  rw [scanInt_fmt_d _ _ _ h2 hbar]
  simp only [ne_eq, not_true_eq_false, if_false, he, List.nil_append]
  rfl

theorem badRecord_of_empty_description (t : Task) (more : List Char) (hwf : t.WellFormed)
    (he : t.description = []) : BadRecord (fmt_record t ++ more) := by
  have hfit : (fmt_record t).length ≤ 109 := by
    have a := fmt_d_length t.id hwf.1
    have b := fmt_d_length t.completed hwf.2.1
    simp only [fmt_record, he, List.length_append, List.length_cons, List.length_nil]
    omega
  unfold BadRecord
  rw [fgets_fmt_record t more hwf hfit]
  simp only
  rw [sscanf_fmt_record_empty t default hwf he]
  decide

/-- C20: when a task before the first empty description has a record line of
more than 109 bytes, that task is loaded with its description cut, so the
result is not the first `k` tasks of the store. -/
theorem load_save_cuts_before_empty_description :
    longThenEmptyStore.tasks[1]?.map Task.description = some [] ∧
    (∀ t ∈ longThenEmptyStore.tasks.take 1, t.description ≠ []) ∧
    (load_tasks (save_tasks true longThenEmptyStore none) Store.init).tasks =
      [⟨10000000, List.replicate 98 'a', 0⟩] ∧
    (load_tasks (save_tasks true longThenEmptyStore none) Store.init).tasks ≠
      longThenEmptyStore.tasks.take 1 := by
  decide

/-- Where the record lines fit the buffer: for a store with at most 100 tasks
whose task at position `k` is the first one with an empty description, and
whose tasks before it have record lines of at most 109 bytes, loading the text
`save_tasks` writes yields exactly the first `k` tasks: the task with the
empty description and every task after it are dropped. -/
theorem load_save_stops_at_empty_description (S mem : Store) (disk : Option (List Char))
    (k : Nat) (tk : Task) (hb : S.Bounded) (hn : InInt S.next_id)
    (hm : mem.task_list.length = MAX_TASKS)
    (hk : S.tasks[k]? = some tk) (hempty : tk.description = [])
    (hfirst : ∀ t ∈ S.tasks.take k, t.description ≠ [])
    (hwf : ∀ t ∈ S.tasks.take (k + 1), t.WellFormed)
    (hfit : ∀ t ∈ S.tasks.take k, (fmt_record t).length ≤ 109) :
    (load_tasks (save_tasks true S disk) mem).tasks = S.tasks.take k ∧
    (load_tasks (save_tasks true S disk) mem).task_count = (k : Int) ∧
    (load_tasks (save_tasks true S disk) mem).next_id = S.next_id := by
  have hklt : k < S.tasks.length := by
    rcases Nat.lt_or_ge k S.tasks.length with h | h
    · exact h
    · rw [List.getElem?_eq_none h] at hk; cases hk
  have hlen : S.tasks.length = S.task_count.toNat := by
    unfold Store.tasks
    rw [List.length_take]
    have := hb.toNat_le
    omega
  have hsplit : S.tasks = S.tasks.take k ++ tk :: S.tasks.drop (k + 1) := by
    have h1 := (List.take_append_drop k S.tasks).symm
    rw [List.drop_eq_getElem_cons hklt] at h1
    have h2 : S.tasks[k] = tk := by
      have := List.getElem?_eq_getElem hklt
      rw [hk] at this
      exact (Option.some.inj this).symm
    rw [h2] at h1
    exact h1
  have htk : tk.WellFormed := by
    apply hwf
    rw [List.take_succ, hk]
    simp
  have hfile : save_tasks true S disk = some (fmt_d S.task_count ++ '\n' ::
      (fmt_d S.next_id ++ '\n' :: (((S.tasks.take k).map fmt_record).flatten ++
        (fmt_record tk ++ ((S.tasks.drop (k + 1)).map fmt_record).flatten)))) := by
    unfold save_tasks
    rw [if_pos rfl, encode_eq S hb]
    congr 4
    conv => lhs; rw [hsplit]
    simp
  have hskip : skipSpace (fmt_record tk ++ ((S.tasks.drop (k + 1)).map fmt_record).flatten) =
      fmt_record tk ++ ((S.tasks.drop (k + 1)).map fmt_record).flatten := by
    unfold fmt_record
    rw [List.append_assoc]
    exact skipSpace_fmt_d _ _
  have hbad : BadRecord (if S.tasks.take k = [] then
      skipSpace (fmt_record tk ++ ((S.tasks.drop (k + 1)).map fmt_record).flatten)
      else fmt_record tk ++ ((S.tasks.drop (k + 1)).map fmt_record).flatten) := by
    rw [hskip, ite_self]
    exact badRecord_of_empty_description tk _ htk hempty
  have hlenk : (S.tasks.take k).length = k := by
    rw [List.length_take]; omega
  obtain ⟨b1, b2, b3⟩ := hb
  have hres := load_tasks_records S.task_count S.next_id (S.tasks.take k)
    (fmt_record tk ++ ((S.tasks.drop (k + 1)).map fmt_record).flatten) mem b3
    (by rw [hlenk]; omega) hn hm
    (fun t ht => ⟨hwf t (List.take_subset_take_left _ (by omega) ht), hfirst t ht, hfit t ht⟩)
    (fun _ => hbad)
  rw [hfile]
  rw [hlenk] at hres
  exact hres

theorem load_save_stops_at_empty_description_witness :
    (load_tasks (save_tasks true secondEmptyStore none) Store.init).tasks =
      secondEmptyStore.tasks.take 1 ∧
    (load_tasks (save_tasks true secondEmptyStore none) Store.init).task_count = ((1 : Nat) : Int) ∧
    (load_tasks (save_tasks true secondEmptyStore none) Store.init).next_id =
      secondEmptyStore.next_id :=
  load_save_stops_at_empty_description secondEmptyStore Store.init none 1 ⟨2, [], 0⟩
    (by decide) (by decide) (by decide) (by decide) (by decide) (by decide) (by decide)
    (by decide)

/-! ## Tolerance of the header -/

end TaskManager
